import Mathlib

/-!
Verification of the payload encoder in `src/core/network/client.ts`
(the core network client of the telegraf repository).

The TypeScript runtime values that flow through the encoder are modelled by
the mutually inductive type `JVal` below.  JavaScript objects are association
lists (`JObj`), arrays are `JArr`.  `Buffer` values and readable streams are
opaque leaves carrying only the data needed by the claims.  Machine-level
string operations are modelled on `String.data` character lists so that every
definition is executable by the kernel.

Stateful code (the multipart form being built, the random attachment-id
generator) is modelled by explicit state passing over `EncSt`.  The calls to
`crypto.randomBytes(16).toString('hex')` produce fresh random tokens; they are
modelled by a counter-backed supply `genId` of pairwise distinct tokens.
Fallible code returns `Except JErr`.
-/

mutual
inductive JVal where
  | null : JVal
  | undefV : JVal
  | bool : Bool → JVal
  | num : Int → JVal
  | str : String → JVal
  | arr : JArr → JVal
  | obj : JObj → JVal
  | buffer : List Nat → JVal
  | stream : String → JVal
  deriving DecidableEq

inductive JArr where
  | nil : JArr
  | cons : JVal → JArr → JArr
  deriving DecidableEq

inductive JObj where
  | nil : JObj
  | cons : String → JVal → JObj → JObj
  deriving DecidableEq
end

instance {ε α : Type} [DecidableEq ε] [DecidableEq α] : DecidableEq (Except ε α)
  | .ok a, .ok b =>
    if h : a = b then .isTrue (by rw [h]) else .isFalse (by intro hc; cases hc; exact h rfl)
  | .ok _, .error _ => .isFalse (by intro h; cases h)
  | .error _, .ok _ => .isFalse (by intro h; cases h)
  | .error e, .error f =>
    if h : e = f then .isTrue (by rw [h]) else .isFalse (by intro hc; cases hc; exact h rfl)

/-- A character-list based prefix test (`String.startsWith`, kernel-reducible). -/
def strStarts (s p : String) : Bool := p.data.isPrefixOf s.data

/-- The JavaScript `typeof` operator on modelled values. -/
def typeofJ : JVal → String
  | .null => "object"
  | .undefV => "undefined"
  | .bool _ => "boolean"
  | .num _ => "number"
  | .str _ => "string"
  | .arr _ => "object"
  | .obj _ => "object"
  | .buffer _ => "object"
  | .stream _ => "object"

/-- JavaScript truthiness of a value. -/
def truthy : JVal → Bool
  | .null => false
  | .undefV => false
  | .bool b => b
  | .num n => n ≠ 0
  | .str s => s ≠ ""
  | .arr _ => true
  | .obj _ => true
  | .buffer _ => true
  | .stream _ => true

/-- A value is nullish when it is `null` or `undefined` (JS `value == null`). -/
def JVal.isNullish : JVal → Bool
  | .null => true
  | .undefV => true
  | _ => false

def JVal.isUndefV : JVal → Bool
  | .undefV => true
  | _ => false

/-- The scalar shapes handled inline by the attachment inliner
(`typeof value === 'string' || 'boolean' || 'number'`). -/
def isScalar : JVal → Bool
  | .str _ => true
  | .bool _ => true
  | .num _ => true
  | _ => false

/-- JavaScript string coercion as used in template literals.  Only scalars are
coerced by the code paths under study; object-like values use placeholder
renderings. -/
def jsToString : JVal → String
  | .str s => s
  | .num n => toString n
  | .bool true => "true"
  | .bool false => "false"
  | .null => "null"
  | .undefV => "undefined"
  | .arr _ => ""
  | .obj _ => "[object Object]"
  | .buffer _ => "[object Object]"
  | .stream _ => "[object Object]"

/-- First binding of a key in an object, if any. -/
def jobjGet : JObj → String → Option JVal
  | .nil, _ => none
  | .cons k' v fs, k => if k' = k then some v else jobjGet fs k

/-- Whether an object carries a key (JS `key in obj` for plain objects). -/
def jobjHas : JObj → String → Bool
  | .nil, _ => false
  | .cons k' _ fs, k => k' = k || jobjHas fs k

/-- Total JS property read: `v[k]`, `undefined` when absent or when `v` is not
an object carrying `k`.  (Reading a property of `null`/`undefined` throws; the
throwing read is `getPropE` below, this total version is used only where the
code has already guarded the value.) -/
def objGetD (v : JVal) (k : String) : JVal :=
  match v with
  | .obj fs => (jobjGet fs k).getD .undefV
  | _ => .undefV

/-- Property assignment as performed by object spread `{...v, k: x}`: the key
is overwritten in place when present, appended otherwise. -/
def jobjSet : JObj → String → JVal → JObj
  | .nil, k, x => .cons k x .nil
  | .cons k' v fs, k, x => if k' = k then .cons k x fs else .cons k' v (jobjSet fs k x)

/-- Object spread `{...v, k: x}` lifted to values.  The code only spreads
genuine objects; spreading any other modelled value yields just the new
binding, matching JS spread of values without own enumerable properties. -/
def jvalSet (v : JVal) (k : String) (x : JVal) : JVal :=
  match v with
  | .obj fs => .obj (jobjSet fs k x)
  | _ => .obj (.cons k x .nil)

/-- Errors surfaced by the encoder: `TypeError`s thrown by the code or by the
JS runtime, and filesystem errors (`ENOENT` from `realpath`/`stat`). -/
inductive JErr where
  | typeError : String → JErr
  | fsError : String → JErr
  deriving DecidableEq

/-- Property read `v.k`: throws a `TypeError` on `null`/`undefined`, yields
`undefined` on primitives and on object-like values without the key. -/
def getPropE : JVal → String → Except JErr JVal
  | .null, k => .error (.typeError ("Cannot read properties of null (reading " ++ k ++ ")"))
  | .undefV, k => .error (.typeError ("Cannot read properties of undefined (reading " ++ k ++ ")"))
  | v, k => .ok (objGetD v k)

/-- The JS `in` operator: throws a `TypeError` when the right operand is not
an object; arrays, buffers and streams carry none of the string keys probed by
this code. -/
def jsInE : JVal → String → Except JErr Bool
  | .obj fs, k => .ok (jobjHas fs k)
  | .arr _, _ => .ok false
  | .buffer _, _ => .ok false
  | .stream _, _ => .ok false
  | _, k => .error (.typeError ("Cannot use 'in' operator to search for " ++ k))

/-- `hasProp` from `src/core/helpers/check.ts`:
`obj !== undefined && prop in obj`. -/
def hasPropE (v : JVal) (k : String) : Except JErr Bool :=
  match v with
  | .undefV => .ok false
  | v => jsInE v k

/-- The array callback of `includesMedia` (client.ts line 83-86):
`({ media }) => media && typeof media === 'object' && (media.source || media.url)`.
Destructuring `media` from a nullish element throws. -/
def mediaItemScan (item : JVal) : Except JErr Bool :=
  match getPropE item "media" with
  | .error e => .error e
  | .ok media =>
    .ok (truthy media && typeofJ media == "object" &&
         (truthy (objGetD media "source") || truthy (objGetD media "url")))

/-- `value.some(...)` over an array value inside `includesMedia`: sequential,
short-circuiting, propagating thrown errors. -/
def jarrSomeScan : JArr → Except JErr Bool
  | .nil => .ok false
  | .cons x xs =>
    match mediaItemScan x with
    | .error e => .error e
    | .ok true => .ok true
    | .ok false => jarrSomeScan xs

/-- One step of the `Object.entries(payload).some` scan in `includesMedia`
(client.ts lines 79-97), for the entry `(k, v)`, with the source's
short-circuit evaluation order. -/
def entryScan (k : String) (v : JVal) : Except JErr Bool :=
  if k = "link_preview_options" then .ok false
  else
    match v with
    | .arr xs => jarrSomeScan xs
    | v =>
      if truthy v && typeofJ v == "object" then
        match hasPropE v "source" with
        | .error e => .error e
        | .ok hs =>
          if hs && truthy (objGetD v "source") then .ok true
          else
            match hasPropE v "url" with
            | .error e => .error e
            | .ok hu =>
              if hu && truthy (objGetD v "url") then .ok true
              else
                match hasPropE v "media" with
                | .error e => .error e
                | .ok hm =>
                  if hm && typeofJ (objGetD v "media") == "object" then
                    match hasPropE (objGetD v "media") "source" with
                    | .error e => .error e
                    | .ok ms =>
                      if ms && truthy (objGetD (objGetD v "media") "source") then .ok true
                      else
                        match hasPropE (objGetD v "media") "url" with
                        | .error e => .error e
                        | .ok mu => .ok (mu && truthy (objGetD (objGetD v "media") "url"))
                  else .ok false
      else .ok false

/-- `includesMedia` (client.ts lines 78-98): structural scan over the payload
entries deciding multipart versus JSON mode. -/
def includesMedia : JObj → Except JErr Bool
  | .nil => .ok false
  | .cons k v fs =>
    match entryScan k v with
    | .error e => .error e
    | .ok true => .ok true
    | .ok false => includesMedia fs

/-- Spec-side shape (claim C1): an object carrying a `source` or `url` key. -/
def carriesSourceOrUrl : JVal → Bool
  | .obj fs => jobjHas fs "source" || jobjHas fs "url"
  | _ => false

/-- Spec-side shape (claim C1): an AttachmentRef-shaped value, i.e. an object
carrying a `source` or `url` key directly or nested one level under `media`. -/
def specAttachmentShaped (v : JVal) : Bool :=
  carriesSourceOrUrl v ||
    (match v with
     | .obj fs => (match jobjGet fs "media" with
       | some m => carriesSourceOrUrl m
       | none => false)
     | _ => false)

def jarrAny (p : JVal → Bool) : JArr → Bool
  | .nil => false
  | .cons x xs => p x || jarrAny p xs

def jobjAnyKV (p : String → JVal → Bool) : JObj → Bool
  | .nil => false
  | .cons k v fs => p k v || jobjAnyKV p fs

/-- Spec-side scan (claim C1, as written): the mapping contains at least one
AttachmentRef-shaped value (an object, or an array element, carrying a
`source` or `url` key, directly or nested one level under `media`), entries
named `link_preview_options` excluded. -/
def specMediaScan (p : JObj) : Bool :=
  jobjAnyKV (fun k v =>
    k ≠ "link_preview_options" &&
    (match v with
     | .arr xs => jarrAny specAttachmentShaped xs
     | v => specAttachmentShaped v)) p

/-- Truthy-object test with a truthy `source` or `url`, mirroring the media
probe the code actually performs. -/
def mediaShapedB (m : JVal) : Bool :=
  truthy m && typeofJ m == "object" &&
    (truthy (objGetD m "source") || truthy (objGetD m "url"))

/-- Total `hasProp` for the amended characterisation: true only for genuine
objects carrying the key. -/
def jobjLikeHas (v : JVal) (k : String) : Bool :=
  match v with
  | .obj fs => jobjHas fs k
  | _ => false

/-- A truthy `source` member carried directly (amended C1 shape). -/
def directSrc (v : JVal) : Bool := jobjLikeHas v "source" && truthy (objGetD v "source")

/-- A truthy `url` member carried directly (amended C1 shape). -/
def directUrl (v : JVal) : Bool := jobjLikeHas v "url" && truthy (objGetD v "url")

/-- A typeof-`object` `media` member with a truthy `source` or `url` one
level down (amended C1 shape); a `null` media member is counted false here,
where the code would instead throw. -/
def mediaNested (v : JVal) : Bool :=
  jobjLikeHas v "media" && typeofJ (objGetD v "media") == "object" &&
    (directSrc (objGetD v "media") || directUrl (objGetD v "media"))

/-- The amended characterisation of one entry of the `includesMedia` scan
(total, agreeing with `entryScan` whenever the latter returns). -/
def entryShapedB (k : String) (v : JVal) : Bool :=
  !(k == "link_preview_options") &&
    (match v with
     | .arr xs => jarrAny (fun it => mediaShapedB (objGetD it "media")) xs
     | v => truthy v && typeofJ v == "object" && (directSrc v || directUrl v || mediaNested v))

/-- The `replacer` of `buildJSONConfig` (client.ts lines 100-103):
`if (value == null) return undefined; return value`. -/
def replacer (v : JVal) : JVal := if v.isNullish then .undefV else v

def jarrOfBytes : List Nat → JArr
  | [] => .nil
  | b :: bs => .cons (.num b) (jarrOfBytes bs)

mutual
/-- Value-level semantics of `JSON.stringify(v, replacer)` composed with
`JSON.parse`: `none` when the replaced value does not serialize (the whole
body is then `undefined`).  Nullish members are replaced by `undefined` and
hence dropped from objects; nullish array elements serialize as `null`.
Buffers serialize through `Buffer.prototype.toJSON`; the enumerable
properties of streams are not modelled (theorems about JSON bodies assume
buffer- and stream-free payloads). -/
def serializeR : JVal → Option JVal
  | .null => none
  | .undefV => none
  | .bool b => some (.bool b)
  | .num n => some (.num n)
  | .str s => some (.str s)
  | .arr xs => some (.arr (serializeRA xs))
  | .obj fs => some (.obj (serializeRO fs))
  | .buffer d => some (.obj (.cons "type" (.str "Buffer") (.cons "data" (.arr (jarrOfBytes d)) .nil)))
  | .stream _ => some (.obj .nil)
termination_by structural v => v

def serializeRA : JArr → JArr
  | .nil => .nil
  | .cons x xs => .cons ((serializeR x).getD .null) (serializeRA xs)
termination_by structural v => v

def serializeRO : JObj → JObj
  | .nil => .nil
  | .cons k v fs =>
    match serializeR v with
    | some u => .cons k u (serializeRO fs)
    | none => serializeRO fs
termination_by structural v => v
end

mutual
/-- Value-level semantics of plain `JSON.stringify(v)` (no replacer) composed
with `JSON.parse`: `null` survives, `undefined` members are dropped,
`undefined` array elements serialize as `null`. -/
def serializeJ : JVal → Option JVal
  | .null => some .null
  | .undefV => none
  | .bool b => some (.bool b)
  | .num n => some (.num n)
  | .str s => some (.str s)
  | .arr xs => some (.arr (serializeJA xs))
  | .obj fs => some (.obj (serializeJO fs))
  | .buffer d => some (.obj (.cons "type" (.str "Buffer") (.cons "data" (.arr (jarrOfBytes d)) .nil)))
  | .stream _ => some (.obj .nil)
termination_by structural v => v

def serializeJA : JArr → JArr
  | .nil => .nil
  | .cons x xs => .cons ((serializeJ x).getD .null) (serializeJA xs)
termination_by structural v => v

def serializeJO : JObj → JObj
  | .nil => .nil
  | .cons k v fs =>
    match serializeJ v with
    | some u => .cons k u (serializeJO fs)
    | none => serializeJO fs
termination_by structural v => v
end

def escapeJsonChar (c : Char) : List Char :=
  if c = '"' then ['\\', '"'] else if c = '\\' then ['\\', '\\'] else [c]

/-- Minimal JSON string escaping (quote and backslash). -/
def escapeJson (s : String) : String := String.mk (s.data.flatMap escapeJsonChar)

mutual
/-- Textual JSON rendering of an (already serialized) value. -/
def render : JVal → String
  | .null => "null"
  | .undefV => "undefined"
  | .bool true => "true"
  | .bool false => "false"
  | .num n => toString n
  | .str s => "\"" ++ escapeJson s ++ "\""
  | .arr xs => "[" ++ renderA xs ++ "]"
  | .obj fs => "\x7b" ++ renderO fs ++ "\x7d"
  | .buffer _ => "null"
  | .stream _ => "null"
termination_by structural v => v

def renderA : JArr → String
  | .nil => ""
  | .cons x .nil => render x
  | .cons x xs => render x ++ "," ++ renderA xs
termination_by structural v => v

def renderO : JObj → String
  | .nil => ""
  | .cons k v .nil => "\"" ++ escapeJson k ++ "\":" ++ render v
  | .cons k v fs => "\"" ++ escapeJson k ++ "\":" ++ render v ++ "," ++ renderO fs
termination_by structural v => v
end

mutual
/-- Spec-side transform of claim C3 as written: remove every nullish-valued
key, at any nesting depth. -/
def stripNullish : JVal → JVal
  | .arr xs => .arr (stripNullishA xs)
  | .obj fs => .obj (stripNullishO fs)
  | v => v
termination_by structural v => v

def stripNullishA : JArr → JArr
  | .nil => .nil
  | .cons x xs => .cons (stripNullish x) (stripNullishA xs)
termination_by structural v => v

def stripNullishO : JObj → JObj
  | .nil => .nil
  | .cons k v fs =>
    if v.isNullish then stripNullishO fs else .cons k (stripNullish v) (stripNullishO fs)
termination_by structural v => v
end

mutual
/-- Spec-side transform of the amended claim C3: remove nullish-valued object
keys at any depth, and replace nullish array elements by `null`. -/
def stripAmended : JVal → JVal
  | .arr xs => .arr (stripAmendedA xs)
  | .obj fs => .obj (stripAmendedO fs)
  | v => v
termination_by structural v => v

def stripAmendedA : JArr → JArr
  | .nil => .nil
  | .cons x xs => .cons (if x.isNullish then .null else stripAmended x) (stripAmendedA xs)
termination_by structural v => v

def stripAmendedO : JObj → JObj
  | .nil => .nil
  | .cons k v fs =>
    if v.isNullish then stripAmendedO fs else .cons k (stripAmended v) (stripAmendedO fs)
termination_by structural v => v
end

mutual
/-- A payload value is plain when it contains no buffers and no streams
(so its JSON serialization needs no `toJSON`/enumerable-property modelling). -/
def isPlain : JVal → Bool
  | .arr xs => isPlainA xs
  | .obj fs => isPlainO fs
  | .buffer _ => false
  | .stream _ => false
  | _ => true
termination_by structural v => v

def isPlainA : JArr → Bool
  | .nil => true
  | .cons x xs => isPlain x && isPlainA xs
termination_by structural v => v

def isPlainO : JObj → Bool
  | .nil => true
  | .cons _ v fs => isPlain v && isPlainO fs
termination_by structural v => v
end

/-- The JSON-mode request configuration built by `buildJSONConfig`
(client.ts lines 105-112). -/
structure JSONConfig where
  method : String
  compress : Bool
  contentType : String
  body : Option String
  deriving DecidableEq

/-- `buildJSONConfig` (client.ts lines 105-112): POST with
`content-type: application/json` and body `JSON.stringify(payload, replacer)`. -/
def buildJSONConfig (payload : JVal) : JSONConfig :=
  ⟨"POST", true, "application/json", (serializeR payload).map render⟩

/-- The binary body of a multipart part: a fetched remote body, a file read
stream, an in-memory buffer, or a caller-supplied stream. -/
inductive BinSrc where
  | fetched : String → BinSrc
  | fileStream : String → BinSrc
  | buf : List Nat → BinSrc
  | strm : String → BinSrc
  deriving DecidableEq

/-- The body of a multipart part.  The wire form of a `scalarText v` body is
the template-literal coercion of the scalar, of an `attachRef i` body the
string `attach://i`, of a `jsonBody v` body `JSON.stringify v`; `binary`
bodies stream bytes. -/
inductive PartBody where
  | scalarText : JVal → PartBody
  | attachRef : String → PartBody
  | jsonBody : JVal → PartBody
  | binary : BinSrc → PartBody
  deriving DecidableEq

/-- One part of the multipart form: the `name` of its content-disposition, an
optional `filename`, and its body. -/
structure FormPart where
  name : String
  filename : Option String
  body : PartBody
  deriving DecidableEq

def FormPart.isBin (pt : FormPart) : Bool :=
  match pt.body with
  | .binary _ => true
  | _ => false

/-- State threaded through the multipart encoder: the supply counter for the
random attachment ids, and the parts appended so far.  `Promise.all` over the
payload entries is modelled sequentially; no claim concerns inter-field part
order. -/
structure EncSt where
  nextId : Nat
  parts : List FormPart
  deriving DecidableEq

/-- Models one draw from `crypto.randomBytes(16).toString('hex')`: the `n`-th
draw of a call is a token distinct from every other draw.  Generated tokens
start with `'$'`, which a hex string never does; theorems assume payload field
names do not start with `'$'`. -/
def genId (n : Nat) : String := String.mk ('$' :: List.replicate n 'x')

/-- External collaborators of the attachment resolver: `fs.realpath` (`none`
models `ENOENT`) and `stat(...).isFile()` on the resolved path.  The remote
fetch of a `url` attachment is modelled as always delivering a body stream. -/
structure MClient where
  fsRealpath : String → Option String
  fsIsFile : String → Bool

/-- `DEFAULT_EXTENSIONS` (client.ts lines 56-64). -/
def DEFAULT_EXTENSIONS : String → Option String
  | "audio" => some "mp3"
  | "photo" => some "jpg"
  | "sticker" => some "webp"
  | "video" => some "mp4"
  | "animation" => some "mp4"
  | "video_note" => some "mp4"
  | "voice" => some "ogg"
  | _ => none

/-- `path.basename`: the final path component (trailing-separator
normalization is not exercised by the claims). -/
def basename (p : String) : String :=
  String.mk ((p.data.splitOn '/').getLastD [])

/-- The part produced by `attachFormMedia` (client.ts lines 225-262) for one
attachment ref, or `none` when the ref carries neither a defined `url` nor a
truthy usable `source` (the code then adds no part).  The bounded-timeout
fetch of a `url` ref is modelled as always succeeding.  Faithful to the
source: reading `media.filename` throws on nullish `media`, and `'url' in
media` throws on primitive `media`. -/
def attachFormMediaPart (env : MClient) (media : JVal) (id : String) : Except JErr (Option FormPart) :=
  match getPropE media "filename" with
  | .error e => .error e
  | .ok fn0 =>
    let fileName := if fn0.isNullish then id ++ "." ++ ((DEFAULT_EXTENSIONS id).getD "dat") else jsToString fn0
    match jsInE media "url" with
    | .error e => .error e
    | .ok hasUrl =>
      if hasUrl && !(objGetD media "url").isUndefV then
        .ok (some ⟨id, some fileName, .binary (.fetched (jsToString (objGetD media "url")))⟩)
      else
        match jsInE media "source" with
        | .error e => .error e
        | .ok hasSrc =>
          if hasSrc && truthy (objGetD media "source") then
            match objGetD media "source" with
            | .str s =>
              match env.fsRealpath s with
              | none => .error (.fsError ("ENOENT: no such file or directory, realpath " ++ s))
              | some resolved =>
                if env.fsIsFile resolved then
                  .ok (some ⟨id, some (if fn0.isNullish then basename s else jsToString fn0),
                             .binary (.fileStream s)⟩)
                else .error (.typeError ("Unable to upload " ++ s ++ ", not a file"))
            | .buffer d => .ok (some ⟨id, some fileName, .binary (.buf d)⟩)
            | .stream t => .ok (some ⟨id, some fileName, .binary (.strm t)⟩)
            | _ => .ok none
          else .ok none

/-- `attachFormMedia` appending its part (if any) to the form state. -/
def attachFormMedia (env : MClient) (media : JVal) (id : String) (st : EncSt) : Except JErr EncSt :=
  match attachFormMediaPart env media id with
  | .error e => .error e
  | .ok op => .ok ⟨st.nextId, st.parts ++ op.toList⟩

/-- The thumbnail value probed by the array branch of `attachFormValue`
(client.ts line 186): `item.thumb ?? item.thumbnail`. -/
def thumbVal (item : JVal) : JVal :=
  if (objGetD item "thumb").isNullish then objGetD item "thumbnail" else objGetD item "thumb"

/-- One media-group item of the array branch of `attachFormValue` (client.ts
lines 180-197).  Reading `item.media` throws on a nullish item; an item whose
`media` is not typeof-`object` passes through; otherwise `media` (and, when
typeof-`object`, `item.thumb ?? item.thumbnail`) is resolved under a fresh id
and the item is rewritten by spread, overwriting `media` and writing the
`thumbnail` key. -/
def attachGroupItem (env : MClient) (item : JVal) (st : EncSt) : Except JErr (JVal × EncSt) :=
  match getPropE item "media" with
  | .error e => .error e
  | .ok m =>
    if typeofJ m != "object" then .ok (item, st)
    else
      let aid := genId st.nextId
      match attachFormMedia env m aid ⟨st.nextId + 1, st.parts⟩ with
      | .error e => .error e
      | .ok st1 =>
        let thv := thumbVal item
        if typeofJ thv == "object" then
          let tid := genId st1.nextId
          match attachFormMedia env thv tid ⟨st1.nextId + 1, st1.parts⟩ with
          | .error e => .error e
          | .ok st2 =>
            .ok (jvalSet (jvalSet item "media" (.str ("attach://" ++ aid)))
                   "thumbnail" (.str ("attach://" ++ tid)), st2)
        else
          .ok (jvalSet item "media" (.str ("attach://" ++ aid)), st1)

/-- The array branch over all group items, in order (the `Promise.all` is
index-preserving). -/
def attachGroupItems (env : MClient) : JArr → EncSt → Except JErr (JArr × EncSt)
  | .nil, st => .ok (.nil, st)
  | .cons x xs, st =>
    match attachGroupItem env x st with
    | .error e => .error e
    | .ok (x', st1) =>
      match attachGroupItems env xs st1 with
      | .error e => .error e
      | .ok (xs', st2) => .ok (.cons x' xs', st2)

/-- `attachFormValue` (client.ts lines 150-223): appends the parts encoding
one field of the payload.  Branches in source order: nullish, scalar,
thumbnail-designated field names, arrays of group items, objects carrying
defined `media` and `type`, and finally direct attachment resolution under the
field's own name. -/
def attachFormValue (env : MClient) (id : String) (value : JVal) (st : EncSt) : Except JErr EncSt :=
  if value.isNullish then .ok st
  else if isScalar value then
    .ok ⟨st.nextId, st.parts ++ [⟨id, none, .scalarText value⟩]⟩
  else if id = "thumb" || id = "thumbnail" then
    let aid := genId st.nextId
    match attachFormMedia env value aid ⟨st.nextId + 1, st.parts⟩ with
    | .error e => .error e
    | .ok st1 => .ok ⟨st1.nextId, st1.parts ++ [⟨id, none, .attachRef aid⟩]⟩
  else
    match value with
    | .arr xs =>
      match attachGroupItems env xs st with
      | .error e => .error e
      | .ok (items, st1) => .ok ⟨st1.nextId, st1.parts ++ [⟨id, none, .jsonBody (.arr items)⟩]⟩
    | value =>
      if truthy value && typeofJ value == "object" then
        match hasPropE value "media" with
        | .error e => .error e
        | .ok hm =>
          if hm then
            match hasPropE value "type" with
            | .error e => .error e
            | .ok ht =>
              if ht && !(objGetD value "media").isUndefV && !(objGetD value "type").isUndefV then
                let aid := genId st.nextId
                match attachFormMedia env (objGetD value "media") aid ⟨st.nextId + 1, st.parts⟩ with
                | .error e => .error e
                | .ok st1 =>
                  .ok ⟨st1.nextId, st1.parts ++
                        [⟨id, none, .jsonBody (jvalSet value "media" (.str ("attach://" ++ aid)))⟩]⟩
              else attachFormMedia env value id st
          else attachFormMedia env value id st
      else attachFormMedia env value id st

/-- `FORM_DATA_JSON_FIELDS` (client.ts lines 114-120). -/
def FORM_DATA_JSON_FIELDS : List String :=
  ["results", "reply_markup", "mask_position", "shipping_options", "errors"]

/-- `JSON.stringify(v)` as a JS value: a string, or `undefined` when `v` does
not serialize. -/
def stringifyNative (v : JVal) : JVal :=
  match serializeJ v with
  | none => .undefV
  | some u => .str (render u)

/-- One step of the JSON-field pre-pass of `buildFormDataConfig` (client.ts
lines 126-130): a present, non-string field of the allowlist is stringified
in place. -/
def setJsonField (p : JObj) (f : String) : JObj :=
  if jobjHas p f && typeofJ ((jobjGet p f).getD .undefV) != "string" then
    jobjSet p f (stringifyNative ((jobjGet p f).getD .undefV))
  else p

/-- The JSON-field pre-pass: runs only at the head of the multipart path. -/
def prePass (p : JObj) : JObj := FORM_DATA_JSON_FIELDS.foldl setJsonField p

/-- Sequenced `attachFormValue` over all payload entries. -/
def attachEntries (env : MClient) : JObj → EncSt → Except JErr EncSt
  | .nil, st => .ok st
  | .cons k v fs, st =>
    match attachFormValue env k v st with
    | .error e => .error e
    | .ok st1 => attachEntries env fs st1

/-- The multipart request configuration built by `buildFormDataConfig`. -/
structure FormConfig where
  method : String
  compress : Bool
  boundary : String
  parts : List FormPart
  deriving DecidableEq

/-- `buildFormDataConfig` (client.ts lines 122-148): JSON-field pre-pass, then
one `attachFormValue` per entry; the boundary is a fresh random token
(irrelevant to the claims, modelled as an opaque constant). -/
def buildFormDataConfig (env : MClient) (payload : JObj) : Except JErr FormConfig :=
  let payload := prePass payload
  match attachEntries env payload ⟨0, []⟩ with
  | .error e => .error e
  | .ok st => .ok ⟨"POST", true, "BOUNDARY", st.parts⟩

/-- A transmission-ready configuration: one of the two encoding modes. -/
inductive EncodedConfig where
  | json : JSONConfig → EncodedConfig
  | form : FormConfig → EncodedConfig
  deriving DecidableEq

/-- Modelled from the spec: the encoding-mode selection of the Payload
Encoder.  The outer RPC surface that performs this selection (`callApi`) is
not under `src/`; per the spec's selection rule, multipart mode is chosen
if and only if the structural scan `includesMedia` reports a media shape,
and JSON mode otherwise. -/
def callApiEncode (env : MClient) (payload : JObj) : Except JErr EncodedConfig :=
  match includesMedia payload with
  | .error e => .error e
  | .ok true =>
    (match buildFormDataConfig env payload with
     | .error e => .error e
     | .ok cfg => .ok (.form cfg))
  | .ok false => .ok (.json (buildJSONConfig (.obj payload)))

/-- The inbound HTTP response sink (`http.ServerResponse`) as seen by
`answerToWebhook`: header-sent introspection, headers, and the body written by
`response.end`. -/
structure WebhookResponse where
  headersSent : Bool
  headers : List (String × String)
  ended : Option String
  deriving DecidableEq

/-- `answerToWebhook` (client.ts lines 264-291).  The live code
unconditionally takes the JSON branch: the `includesMedia` guard is commented
out and the multipart branch (lines 277-290) sits behind an unconditional
`return`, so it is unreachable and absent from the model.  The payload is
written with plain `JSON.stringify` (no replacer); the content-type header is
set only when headers have not been sent. -/
def answerToWebhook (response : WebhookResponse) (payload : JObj) : WebhookResponse × Bool :=
  let response :=
    if response.headersSent then response
    else { response with headers := response.headers ++ [("content-type", "application/json")] }
  ({ response with ended := (serializeJ (.obj payload)).map render, headersSent := true }, true)

/-- One attempted match of the credential regex `\/(bot|user)(\d+):[^\/]+\//`
at the head of the character list: on success, the replacement
`/$1$2:[REDACTED]/` for the matched span and the remainder after it. -/
def credMatchAt (cs : List Char) : Option (List Char × List Char) :=
  match cs with
  | [] => none
  | c :: rest =>
    if c = '/' then
      let kind : Option (List Char × List Char) :=
        if ['b', 'o', 't'].isPrefixOf rest then some (['b', 'o', 't'], rest.drop 3)
        else if ['u', 's', 'e', 'r'].isPrefixOf rest then some (['u', 's', 'e', 'r'], rest.drop 4)
        else none
      match kind with
      | none => none
      | some (kw, r1) =>
        let ds := r1.takeWhile Char.isDigit
        let r2 := r1.dropWhile Char.isDigit
        if ds = [] then none
        else
          match r2 with
          | [] => none
          | c2 :: r3 =>
            if c2 = ':' then
              let sec := r3.takeWhile (· ≠ '/')
              let r4 := r3.dropWhile (· ≠ '/')
              if sec = [] then none
              else
                match r4 with
                | [] => none
                | c3 :: r5 =>
                  if c3 = '/' then
                    some ('/' :: (kw ++ ds ++ ':' :: ("[REDACTED]".data ++ ['/'])), r5)
                  else none
            else none
    else none

/-- Leftmost-match, single-occurrence `String.replace` semantics of the
credential regex (the regex carries no global flag). -/
def redactChars : List Char → List Char
  | [] => []
  | c :: cs =>
    match credMatchAt (c :: cs) with
    | some (rep, rest) => rep ++ rest
    | none => c :: redactChars cs

/-- `redactToken` (client.ts lines 293-299) as a message transform: the
rethrown error carries this rewritten message. -/
def redactToken (msg : String) : String := String.mk (redactChars msg.data)

/-- The id of an `attach://<id>` reference string, if the string is one. -/
def tokenOf (s : String) : List String :=
  if "attach://".data.isPrefixOf s.data then [String.mk (s.data.drop 9)] else []

mutual
/-- All `attach://<id>` reference ids contained in string positions of a
value. -/
def jvalTokens : JVal → List String
  | .str s => tokenOf s
  | .arr xs => jarrTokens xs
  | .obj fs => jobjTokens fs
  | _ => []
termination_by structural v => v

def jarrTokens : JArr → List String
  | .nil => []
  | .cons x xs => jvalTokens x ++ jarrTokens xs
termination_by structural v => v

def jobjTokens : JObj → List String
  | .nil => []
  | .cons _ v fs => jvalTokens v ++ jobjTokens fs
termination_by structural v => v
end

/-- The `attach://` reference ids occurring in the textual/JSON wire body of a
part. -/
def partTokens (pt : FormPart) : List String :=
  match pt.body with
  | .scalarText v => jvalTokens v
  | .attachRef i => [i]
  | .jsonBody v => jvalTokens v
  | .binary _ => []

def partsTokens (l : List FormPart) : List String := l.flatMap partTokens

def jobjKeys : JObj → List String
  | .nil => []
  | .cons k _ fs => k :: jobjKeys fs

def jarrLength : JArr → Nat
  | .nil => 0
  | .cons _ xs => jarrLength xs + 1

/-- Positional read of an array value (`undefined` out of range). -/
def jarrGet : JArr → Nat → JVal
  | .nil, _ => .undefV
  | .cons x _, 0 => x
  | .cons _ xs, n + 1 => jarrGet xs n

theorem getPropE_not_nullish (v : JVal) (k : String) (h : v.isNullish = false) :
    getPropE v k = .ok (objGetD v k) := by
  cases v <;> simp_all [JVal.isNullish, getPropE]

theorem attachFormMediaPart_shape (env : MClient) (m : JVal) (i : String) (op : Option FormPart)
    (h : attachFormMediaPart env m i = .ok op) :
    ∀ pt ∈ op.toList, pt.name = i ∧ pt.isBin = true ∧ partTokens pt = [] := by
  unfold attachFormMediaPart at h
  rcases hf : getPropE m "filename" with e | fn0 <;> rw [hf] at h
  · cases h
  · dsimp only at h
    rcases hu : jsInE m "url" with e | hasUrl <;> rw [hu] at h
    · cases h
    · dsimp only at h
      split at h
      · cases h
        simp [FormPart.isBin, partTokens]
      · rcases hs : jsInE m "source" with e | hasSrc <;> rw [hs] at h
        · cases h
        · dsimp only at h
          split at h
          · rcases hsv : objGetD m "source" with _ | _ | b | n | s | xs | fs | d | t <;>
              rw [hsv] at h <;> dsimp only at h
            · cases h
              simp
            · cases h
              simp
            · cases h
              simp
            · cases h
              simp
            · rcases hr : env.fsRealpath s with _ | r <;> rw [hr] at h <;> dsimp only at h
              · cases h
              · split at h
                · cases h
                  simp [FormPart.isBin, partTokens]
                · cases h
            · cases h
              simp
            · cases h
              simp
            · cases h
              simp [FormPart.isBin, partTokens]
            · cases h
              simp [FormPart.isBin, partTokens]
          · cases h
            simp

/-- C10: a field value that is an object with both `media` and `type` defined,
where `media` is already a string (an already-resolved `attach://` reference
or file id), is passed to `attachFormMedia` without the object check the array
branch performs, and the evaluation of `'url' in media` on the string throws a
`TypeError`: encoding fails on this well-formed input instead of passing the
string reference through. -/
theorem c10_string_media_throws (env : MClient) (st : EncSt) (id s : String) (ty : JVal)
    (hid1 : id ≠ "thumb") (hid2 : id ≠ "thumbnail") (hty : ty.isUndefV = false) :
    attachFormValue env id (.obj (.cons "media" (.str s) (.cons "type" ty .nil))) st =
      .error (.typeError "Cannot use 'in' operator to search for url") := by
  cases ty <;>
    simp_all [attachFormValue, JVal.isNullish, isScalar, truthy, typeofJ, hasPropE, jsInE,
      jobjHas, objGetD, jobjGet, JVal.isUndefV, attachFormMedia, attachFormMediaPart, getPropE]

/-- Witness for C10 at a concrete input. -/
theorem c10_string_media_throws_witness :
    attachFormValue ⟨fun _ => none, fun _ => false⟩ "x"
        (.obj (.cons "media" (.str "attach://file_id") (.cons "type" (.str "photo") .nil)))
        ⟨0, []⟩ =
      .error (.typeError "Cannot use 'in' operator to search for url") :=
  c10_string_media_throws ⟨fun _ => none, fun _ => false⟩ ⟨0, []⟩ "x" "attach://file_id"
    (.str "photo") (by decide) (by decide) (by decide)

/-- C9: `answerToWebhook` unconditionally takes the JSON branch: it writes the
`JSON.stringify`-ed payload onto the inbound response, sets the content-type
header only when headers were not yet sent, and resolves `true`; no multipart
body is ever built (the multipart branch of the source, lines 277-290, sits
behind an unconditional `return` and is unreachable). -/
theorem c9_webhook_reply_json (r : WebhookResponse) (p : JObj) :
    answerToWebhook r p =
      (⟨true,
        (if r.headersSent then r.headers else r.headers ++ [("content-type", "application/json")]),
        some (render (.obj (serializeJO p)))⟩, true) := by
  by_cases h : r.headersSent <;> simp [answerToWebhook, h, serializeJ]

/-- Filesystem environment in which no path exists. -/
def fsNoneEnv : MClient := ⟨fun _ => none, fun _ => false⟩

/-- Filesystem environment in which every path resolves to itself and is a
regular file. -/
def fsAllEnv : MClient := ⟨fun s => some s, fun _ => true⟩

/-- Filesystem environment in which every path resolves but nothing is a
regular file. -/
def fsDirEnv : MClient := ⟨fun s => some s, fun _ => false⟩

/-- Payload of the C4 counterexample: a buffer-backed `photo` (forcing
multipart mode) and a `thumb` field holding a string path to a real file. -/
def payloadC4 : JObj :=
  .cons "photo" (.obj (.cons "source" (.buffer [1]) .nil))
    (.cons "thumb" (.str "/tmp/x.jpg") .nil)

/-- Counterexample to C4: a `thumb` field whose value is a string path to a
real file is caught by the scalar branch, which runs before the
thumbnail-designated branch; it is sent inline as one textual part holding
the path, with no `attach://<id>` reference and no binary part at all —
not the two parts the claim requires. -/
theorem c4_thumb_string_cex :
    includesMedia payloadC4 = .ok true ∧
    buildFormDataConfig fsAllEnv payloadC4 =
      .ok ⟨"POST", true, "BOUNDARY",
        [⟨"photo", some "photo.jpg", .binary (.buf [1])⟩,
         ⟨"thumb", none, .scalarText (.str "/tmp/x.jpg")⟩]⟩ ∧
    partsTokens
        ([⟨"photo", some "photo.jpg", .binary (.buf [1])⟩,
          ⟨"thumb", none, .scalarText (.str "/tmp/x.jpg")⟩] : List FormPart) = [] ∧
    List.countP (fun pt => pt.name = "thumb")
        ([⟨"photo", some "photo.jpg", .binary (.buf [1])⟩,
          ⟨"thumb", none, .scalarText (.str "/tmp/x.jpg")⟩] : List FormPart) = 1 := by
  refine ⟨by decide, by decide, by decide, by decide⟩

/-- C4 (amended): every non-scalar, non-nullish value under a field named
`thumb` or `thumbnail` is routed through the media resolver under a fresh
attachment id, and a textual part holding the `attach://<id>` reference is
appended under the original field name; in particular a `thumb` carrying
`{source: <path>}` for a real file produces exactly the binary part named
`<id>` (filename the path's base name) and the `attach://<id>` textual part.
A `thumb` whose value is a plain string is instead sent inline by the
earlier scalar branch. -/
theorem c4_thumb_routes_nonscalar (env : MClient) (id : String) (v : JVal) (st : EncSt)
    (op : Option FormPart)
    (hid : id = "thumb" ∨ id = "thumbnail")
    (hn : v.isNullish = false) (hs : isScalar v = false)
    (hm : attachFormMediaPart env v (genId st.nextId) = .ok op) :
    attachFormValue env id v st =
      .ok ⟨st.nextId + 1, st.parts ++ op.toList ++ [⟨id, none, .attachRef (genId st.nextId)⟩]⟩ := by
  rcases hid with h | h <;> subst h <;>
    cases v <;> simp_all [attachFormValue, JVal.isNullish, isScalar, attachFormMedia]

/-- Witness for C4 (amended): the spec's own scenario, adjusted to an
attachment-ref thumb `{source: "/tmp/x.jpg"}` on a real file: two parts, the
binary one named by the fresh id with filename `x.jpg`. -/
theorem c4_thumb_routes_nonscalar_witness :
    attachFormValue fsAllEnv "thumb" (.obj (.cons "source" (.str "/tmp/x.jpg") .nil)) ⟨0, []⟩ =
      .ok ⟨1, [⟨genId 0, some "x.jpg", .binary (.fileStream "/tmp/x.jpg")⟩,
               ⟨"thumb", none, .attachRef (genId 0)⟩]⟩ := by
  have h := c4_thumb_routes_nonscalar fsAllEnv "thumb"
    (.obj (.cons "source" (.str "/tmp/x.jpg") .nil)) ⟨0, []⟩
    (some ⟨genId 0, some "x.jpg", .binary (.fileStream "/tmp/x.jpg")⟩)
    (Or.inl rfl) (by decide) (by decide) (by decide)
  simpa using h

theorem prePass_single_not_json (k : String) (v : JVal) (hk : k ∉ FORM_DATA_JSON_FIELDS) :
    prePass (.cons k v .nil) = .cons k v .nil := by
  simp only [FORM_DATA_JSON_FIELDS, List.mem_cons, List.mem_singleton, not_or] at hk
  obtain ⟨h1, h2, h3, h4, h5⟩ := hk
  simp [prePass, FORM_DATA_JSON_FIELDS, setJsonField, jobjHas, h1, h2, h3, h4, h5]

/-- C7: resolution of a string-path attachment source: symbolic links are
resolved and the result is stat-ed; a missing path fails with the
filesystem's `ENOENT` error (the spec's *InvalidAttachmentSource*), a
non-regular-file target fails with the thrown "not a file" `TypeError` and
emits no part, and otherwise the emitted part's default filename is the
path's base name; a missing path makes the whole multipart build fail, so no
multipart body is produced. -/
theorem c7_source_path (env : MClient) (pth id : String) (st : EncSt) (hp : pth ≠ "") :
    (env.fsRealpath pth = none →
      attachFormMedia env (.obj (.cons "source" (.str pth) .nil)) id st =
        .error (.fsError ("ENOENT: no such file or directory, realpath " ++ pth))) ∧
    (∀ r, env.fsRealpath pth = some r → env.fsIsFile r = false →
      attachFormMedia env (.obj (.cons "source" (.str pth) .nil)) id st =
        .error (.typeError ("Unable to upload " ++ pth ++ ", not a file"))) ∧
    (∀ r, env.fsRealpath pth = some r → env.fsIsFile r = true →
      attachFormMedia env (.obj (.cons "source" (.str pth) .nil)) id st =
        .ok ⟨st.nextId, st.parts ++ [⟨id, some (basename pth), .binary (.fileStream pth)⟩]⟩) ∧
    (∀ k, k ∉ FORM_DATA_JSON_FIELDS → env.fsRealpath pth = none →
      buildFormDataConfig env (.cons k (.obj (.cons "source" (.str pth) .nil)) .nil) =
        .error (.fsError ("ENOENT: no such file or directory, realpath " ++ pth))) := by
  have hbase : ∀ s : EncSt, env.fsRealpath pth = none →
      attachFormMedia env (.obj (.cons "source" (.str pth) .nil)) id s =
        .error (.fsError ("ENOENT: no such file or directory, realpath " ++ pth)) := by
    intro s h
    simp [attachFormMedia, attachFormMediaPart, getPropE, jsInE, jobjHas, objGetD, jobjGet,
      truthy, JVal.isNullish, JVal.isUndefV, h, hp]
  refine ⟨hbase st, ?_, ?_, ?_⟩
  · intro r h hf
    simp [attachFormMedia, attachFormMediaPart, getPropE, jsInE, jobjHas, objGetD, jobjGet,
      truthy, JVal.isNullish, JVal.isUndefV, h, hf, hp]
  · intro r h hf
    simp [attachFormMedia, attachFormMediaPart, getPropE, jsInE, jobjHas, objGetD, jobjGet,
      truthy, JVal.isNullish, JVal.isUndefV, basename, h, hf, hp]
  · intro k hk h
    rw [buildFormDataConfig, prePass_single_not_json k _ hk]
    have hval : ∀ kk : String,
        attachFormValue env kk (.obj (.cons "source" (.str pth) .nil)) ⟨0, []⟩ =
          .error (.fsError ("ENOENT: no such file or directory, realpath " ++ pth)) := by
      intro kk
      by_cases h1 : kk = "thumb"
      · simp [attachFormValue, JVal.isNullish, isScalar, h1, attachFormMedia,
          attachFormMediaPart, getPropE, jsInE, jobjHas, objGetD, jobjGet, truthy,
          JVal.isUndefV, h, hp]
      · by_cases h2 : kk = "thumbnail"
        · simp [attachFormValue, JVal.isNullish, isScalar, h1, h2, attachFormMedia,
            attachFormMediaPart, getPropE, jsInE, jobjHas, objGetD, jobjGet, truthy,
            JVal.isUndefV, h, hp]
        · simp [attachFormValue, JVal.isNullish, isScalar, h1, h2, typeofJ, hasPropE,
            jsInE, jobjHas, attachFormMedia, attachFormMediaPart, getPropE, objGetD,
            jobjGet, truthy, JVal.isUndefV, h, hp]
    simp [attachEntries, hval k]

/-- Witness for C7: the three filesystem outcomes and the failing whole-build
case, at concrete inputs. -/
theorem c7_source_path_witness :
    attachFormMedia fsNoneEnv (.obj (.cons "source" (.str "/no/file") .nil)) "doc" ⟨0, []⟩ =
        .error (.fsError "ENOENT: no such file or directory, realpath /no/file") ∧
    attachFormMedia fsDirEnv (.obj (.cons "source" (.str "/tmp") .nil)) "doc" ⟨0, []⟩ =
        .error (.typeError "Unable to upload /tmp, not a file") ∧
    attachFormMedia fsAllEnv (.obj (.cons "source" (.str "/tmp/x.jpg") .nil)) "doc" ⟨0, []⟩ =
        .ok ⟨0, [⟨"doc", some "x.jpg", .binary (.fileStream "/tmp/x.jpg")⟩]⟩ ∧
    buildFormDataConfig fsNoneEnv
        (.cons "document" (.obj (.cons "source" (.str "/no/file") .nil)) .nil) =
      .error (.fsError "ENOENT: no such file or directory, realpath /no/file") := by
  refine ⟨(c7_source_path fsNoneEnv "/no/file" "doc" ⟨0, []⟩ (by decide)).1 rfl,
          (c7_source_path fsDirEnv "/tmp" "doc" ⟨0, []⟩ (by decide)).2.1 "/tmp" rfl rfl,
          ?_,
          (c7_source_path fsNoneEnv "/no/file" "doc" ⟨0, []⟩ (by decide)).2.2.2 "document" (by decide) rfl⟩
  have h := (c7_source_path fsAllEnv "/tmp/x.jpg" "doc" ⟨0, []⟩ (by decide)).2.2.1 "/tmp/x.jpg" rfl rfl
  simpa using h



theorem jarrInduction (motive : JArr → Prop) (hnil : motive .nil)
    (hcons : ∀ x xs, motive xs → motive (.cons x xs)) : ∀ xs, motive xs
  | .nil => hnil
  | .cons x xs => hcons x xs (jarrInduction motive hnil hcons xs)

theorem jobjInduction (motive : JObj → Prop) (hnil : motive .nil)
    (hcons : ∀ k v fs, motive fs → motive (.cons k v fs)) : ∀ p, motive p
  | .nil => hnil
  | .cons k v fs => hcons k v fs (jobjInduction motive hnil hcons fs)

theorem mediaItemScan_ok (item : JVal) (c : Bool) (h : mediaItemScan item = .ok c) :
    mediaShapedB (objGetD item "media") = c := by
  cases item <;> simp_all [mediaItemScan, getPropE, mediaShapedB]

theorem jarrSomeScan_ok (xs : JArr) : ∀ (c : Bool), jarrSomeScan xs = .ok c →
    jarrAny (fun it => mediaShapedB (objGetD it "media")) xs = c := by
  induction xs using jarrInduction with
  | hnil =>
    intro c h
    cases h
    rfl
  | hcons x xs ih =>
    intro c h
    rw [jarrSomeScan] at h
    rcases hx : mediaItemScan x with e | b <;> rw [hx] at h
    · cases h
    · have hb := mediaItemScan_ok x b hx
      cases b with
      | false =>
        dsimp only at h
        simp [jarrAny, hb, ih c h]
      | true =>
        dsimp only at h
        cases h
        simp [jarrAny, hb]

theorem entryScan_ok (k : String) (v : JVal) (c : Bool) (h : entryScan k v = .ok c) :
    entryShapedB k v = c := by
  rw [entryScan.eq_def] at h
  rw [entryShapedB.eq_def]
  by_cases hk : k = "link_preview_options"
  · rw [if_pos hk] at h
    cases h
    simp [hk]
  · rw [if_neg hk] at h
    have hkb : (k == "link_preview_options") = false := by simp [hk]
    cases v with
    | arr xs =>
      dsimp only at h ⊢
      simp [hkb, jarrSomeScan_ok xs c h]
    | obj fs =>
      dsimp only at h ⊢
      rw [if_pos (by simp [truthy, typeofJ])] at h
      simp only [hasPropE, jsInE] at h
      simp only [hkb, Bool.not_false, Bool.true_and, truthy, typeofJ, beq_self_eq_true]
      simp only [mediaNested, directSrc, directUrl, jobjLikeHas]
      generalize hgm : objGetD (JVal.obj fs) "media" = m at h ⊢
      split_ifs at h with h1 h2 h3
      · cases h
        simp [h1]
      · rw [Bool.not_eq_true] at h1
        cases h
        simp [h1, h2]
      · rw [Bool.not_eq_true] at h1 h2
        cases m with
        | undefV => simp [typeofJ] at h3
        | bool b => simp [typeofJ] at h3
        | num n => simp [typeofJ] at h3
        | str t => simp [typeofJ] at h3
        | null =>
          dsimp only at h
          simp at h
        | arr ys =>
          dsimp only at h
          simp only [Bool.false_and, if_false] at h
          cases h
          simp [h1, h2, h3]
        | buffer d =>
          dsimp only at h
          simp only [Bool.false_and, if_false] at h
          cases h
          simp [h1, h2, h3]
        | stream t =>
          dsimp only at h
          simp only [Bool.false_and, if_false] at h
          cases h
          simp [h1, h2, h3]
        | obj gs =>
          dsimp only at h
          split_ifs at h with h4
          · cases h
            simp [h1, h2, h3, h4]
          · rw [Bool.not_eq_true] at h4
            cases h
            simp [h1, h2, h3, h4]
      · rw [Bool.not_eq_true] at h1 h2 h3
        cases h
        simp [h1, h2, h3]
    | null =>
      dsimp only at h ⊢
      rw [if_neg (by decide)] at h
      cases h
      simp [truthy]
    | undefV =>
      dsimp only at h ⊢
      rw [if_neg (by decide)] at h
      cases h
      simp [truthy]
    | bool b =>
      dsimp only at h ⊢
      rw [if_neg (by simp [truthy, typeofJ])] at h
      cases h
      simp [typeofJ]
    | num n =>
      dsimp only at h ⊢
      rw [if_neg (by simp [truthy, typeofJ])] at h
      cases h
      simp [typeofJ]
    | str s =>
      dsimp only at h ⊢
      rw [if_neg (by simp [truthy, typeofJ])] at h
      cases h
      simp [typeofJ]
    | buffer d =>
      dsimp only at h ⊢
      rw [if_pos (by simp [truthy, typeofJ])] at h
      simp only [hasPropE, jsInE, Bool.false_and, if_false] at h
      cases h
      simp [hkb, directSrc, directUrl, mediaNested, jobjLikeHas]
    | stream t =>
      dsimp only at h ⊢
      rw [if_pos (by simp [truthy, typeofJ])] at h
      simp only [hasPropE, jsInE, Bool.false_and, if_false] at h
      cases h
      simp [hkb, directSrc, directUrl, mediaNested, jobjLikeHas]

theorem includesMedia_ok (p : JObj) : ∀ (b : Bool), includesMedia p = .ok b →
    b = jobjAnyKV entryShapedB p := by
  induction p using jobjInduction with
  | hnil =>
    intro b h
    cases h
    rfl
  | hcons k v fs ih =>
    intro b h
    rw [includesMedia] at h
    rcases he : entryScan k v with e | c <;> rw [he] at h
    · cases h
    · have hc := entryScan_ok k v c he
      cases c with
      | false =>
        dsimp only at h
        simp [jobjAnyKV, hc, ih b h]
      | true =>
        dsimp only at h
        cases h
        simp [jobjAnyKV, hc]

/-- Payload of the C1 counterexample: an array element carrying a `url` key
directly (not nested under `media`). -/
def payloadC1 : JObj :=
  .cons "x" (.arr (.cons (.obj (.cons "url" (.str "http://example") .nil)) .nil)) .nil

/-- Counterexample to C1 as stated: an array element that carries a `url` key
directly is AttachmentRef-shaped per the claim, but the array arm of the scan
probes only the `media` member of each element, so `includesMedia` returns
`false` (JSON mode) on this mapping. -/
theorem c1_includesMedia_cex :
    includesMedia payloadC1 = .ok false ∧ specMediaScan payloadC1 = true := by
  refine ⟨by decide, by decide⟩

/-- C1 (amended): whenever the structural scan completes without throwing, it
returns `true` exactly when some entry whose key is not
`link_preview_options` holds either (a) an array some element of which has a
`media` member that is a truthy typeof-`object` value with a truthy `source`
or `url`, or (b) a non-array truthy typeof-`object` value with a truthy
`source`, a truthy `url`, or a typeof-`object` `media` member carrying a
truthy `source` or `url` one level down; merely carrying a `source`/`url` key
with a falsy value does not count, and a direct `source`/`url` on an array
element is not probed.  (On some mappings, e.g. a `null`-valued `media`
member, the scan throws instead of returning.) -/
theorem c1_scan_amended (p : JObj) (b : Bool) (h : includesMedia p = .ok b) :
    b = jobjAnyKV entryShapedB p :=
  includesMedia_ok p b h

/-- Witness for C1 (amended) at concrete mappings covering both outcomes. -/
theorem c1_scan_amended_witness :
    includesMedia (.cons "photo" (.obj (.cons "source" (.str "p") .nil)) .nil) = .ok true ∧
    true = jobjAnyKV entryShapedB (.cons "photo" (.obj (.cons "source" (.str "p") .nil)) .nil) ∧
    includesMedia (.cons "text" (.str "hi") .nil) = .ok false ∧
    false = jobjAnyKV entryShapedB (.cons "text" (.str "hi") .nil) :=
  ⟨by decide,
   c1_scan_amended (.cons "photo" (.obj (.cons "source" (.str "p") .nil)) .nil) true (by decide),
   by decide,
   c1_scan_amended (.cons "text" (.str "hi") .nil) false (by decide)⟩

mutual
theorem serializeR_plain : ∀ (v : JVal), isPlain v = true →
    serializeR v = if v.isNullish then none else some (stripAmended v)
  | .null, _ => by simp [serializeR, JVal.isNullish]
  | .undefV, _ => by simp [serializeR, JVal.isNullish]
  | .bool b, _ => by simp [serializeR, stripAmended, JVal.isNullish]
  | .num n, _ => by simp [serializeR, stripAmended, JVal.isNullish]
  | .str s, _ => by simp [serializeR, stripAmended, JVal.isNullish]
  | .arr xs, hp => by
    have h := serializeRA_plain xs (by simpa [isPlain] using hp)
    simp [serializeR, stripAmended, JVal.isNullish, h]
  | .obj fs, hp => by
    have h := serializeRO_plain fs (by simpa [isPlain] using hp)
    simp [serializeR, stripAmended, JVal.isNullish, h]
  | .buffer d, hp => by simp [isPlain] at hp
  | .stream t, hp => by simp [isPlain] at hp
termination_by structural v => v

theorem serializeRA_plain : ∀ (xs : JArr), isPlainA xs = true →
    serializeRA xs = stripAmendedA xs
  | .nil, _ => rfl
  | .cons x xs, hp => by
    have hpx : isPlain x = true := by
      rw [isPlainA] at hp
      exact (Bool.and_eq_true _ _ |>.mp hp).1
    have hpxs : isPlainA xs = true := by
      rw [isPlainA] at hp
      exact (Bool.and_eq_true _ _ |>.mp hp).2
    have h1 := serializeR_plain x hpx
    have h2 := serializeRA_plain xs hpxs
    cases hx : x.isNullish <;> simp [serializeRA, stripAmendedA, h1, h2, hx]
termination_by structural v => v

theorem serializeRO_plain : ∀ (fs : JObj), isPlainO fs = true →
    serializeRO fs = stripAmendedO fs
  | .nil, _ => rfl
  | .cons k v fs, hp => by
    have hpv : isPlain v = true := by
      rw [isPlainO] at hp
      exact (Bool.and_eq_true _ _ |>.mp hp).1
    have hpfs : isPlainO fs = true := by
      rw [isPlainO] at hp
      exact (Bool.and_eq_true _ _ |>.mp hp).2
    have h1 := serializeR_plain v hpv
    have h2 := serializeRO_plain fs hpfs
    cases hv : v.isNullish <;> simp [serializeRO, stripAmendedO, h1, h2, hv]
termination_by structural v => v
end

/-- Payload of the C3 counterexample: a nested array holding an `undefined`
element (and no attachment shape anywhere). -/
def payloadC3 : JObj :=
  .cons "a" (.obj (.cons "b" (.arr (.cons .undefV .nil)) .nil)) .nil

/-- Counterexample to C3 as stated: on `{a: {b: [undefined]}}` JSON mode is
chosen, but the body parses back (`serializeR` is the value-level semantics
of `JSON.stringify(·, replacer)` followed by `JSON.parse`) to
`{a: {b: [null]}}`: the nullish array element is replaced by `null`, not
removed, so the parse-back differs from the input with nullish keys removed. -/
theorem c3_roundtrip_cex :
    includesMedia payloadC3 = .ok false ∧
    callApiEncode fsNoneEnv payloadC3 = .ok (.json (buildJSONConfig (.obj payloadC3))) ∧
    serializeR (.obj payloadC3) ≠ some (stripNullish (.obj payloadC3)) := by
  refine ⟨by decide, by decide, by decide⟩

/-- C3 (amended): for every buffer/stream-free mapping on which the
structural scan returns `false`, the encoder chooses JSON mode, and the JSON
body — whose parse-back semantics is `serializeR` — equals the input mapping
with all nullish-valued object keys (at any depth) removed and nullish array
elements replaced by `null`. -/
theorem c3_json_roundtrip_amended (env : MClient) (p : JObj)
    (h : includesMedia p = .ok false) (hp : isPlainO p = true) :
    callApiEncode env p = .ok (.json (buildJSONConfig (.obj p))) ∧
    (buildJSONConfig (.obj p)).body = some (render (stripAmended (.obj p))) ∧
    serializeR (.obj p) = some (stripAmended (.obj p)) := by
  have hs : serializeR (.obj p) = some (stripAmended (.obj p)) := by
    have hh := serializeR_plain (.obj p) (by simpa [isPlain] using hp)
    simpa [JVal.isNullish] using hh
  refine ⟨?_, ?_, hs⟩
  · simp [callApiEncode, h]
  · simp [buildJSONConfig, hs]

/-- Witness payload for C3 (amended): `{a: null, b: "hi", c: {d: undefined}}`. -/
def payloadC3w : JObj :=
  .cons "a" .null (.cons "b" (.str "hi") (.cons "c" (.obj (.cons "d" .undefV .nil)) .nil))

/-- Witness for C3 (amended) at `payloadC3w`. -/
theorem c3_json_roundtrip_amended_witness :
    includesMedia payloadC3w = .ok false ∧
    (callApiEncode fsNoneEnv payloadC3w = .ok (.json (buildJSONConfig (.obj payloadC3w))) ∧
     (buildJSONConfig (.obj payloadC3w)).body = some (render (stripAmended (.obj payloadC3w))) ∧
     serializeR (.obj payloadC3w) = some (stripAmended (.obj payloadC3w))) :=
  ⟨by decide, c3_json_roundtrip_amended fsNoneEnv payloadC3w (by decide) (by decide)⟩

/-- Payload of the C6 counterexample: a `reply_markup` object in a mapping
with no attachment shape. -/
def payloadC6 : JObj :=
  .cons "chat_id" (.num 1) (.cons "reply_markup" (.obj (.cons "keyboard" (.arr .nil) .nil)) .nil)

/-- Counterexample to C6 as stated: the JSON-field pre-pass lives at the head
of `buildFormDataConfig` only; in JSON mode a non-string `reply_markup` is
serialized in place as a nested JSON object, not stringified first, so its
transmitted value (parse-back semantics `serializeR`) is an object, not a
string. -/
theorem c6_json_mode_cex :
    includesMedia payloadC6 = .ok false ∧
    callApiEncode fsNoneEnv payloadC6 = .ok (.json (buildJSONConfig (.obj payloadC6))) ∧
    serializeR (.obj payloadC6) =
      some (.obj (.cons "chat_id" (.num 1)
        (.cons "reply_markup" (.obj (.cons "keyboard" (.arr .nil) .nil)) .nil))) ∧
    typeofJ (objGetD (.obj (.cons "chat_id" (.num 1)
        (.cons "reply_markup" (.obj (.cons "keyboard" (.arr .nil) .nil)) .nil)))
      "reply_markup") ≠ "string" := by
  refine ⟨by decide, by decide, by decide, by decide⟩

theorem stringMk_data (s : String) : String.mk s.data = s := rfl

theorem takeWhile_append_of_all (p : Char → Bool) (xs ys : List Char)
    (h : ∀ x ∈ xs, p x = true) : (xs ++ ys).takeWhile p = xs ++ ys.takeWhile p := by
  induction xs with
  | nil => rfl
  | cons a l ih =>
    simp [List.takeWhile_cons, h a (by simp), ih (fun x hx => h x (by simp [hx]))]

theorem dropWhile_append_of_all (p : Char → Bool) (xs ys : List Char)
    (h : ∀ x ∈ xs, p x = true) : (xs ++ ys).dropWhile p = ys.dropWhile p := by
  induction xs with
  | nil => rfl
  | cons a l ih =>
    simp [List.dropWhile_cons, h a (by simp), ih (fun x hx => h x (by simp [hx]))]

theorem credMatchAt_not_slash (c : Char) (cs : List Char) (h : c ≠ '/') :
    credMatchAt (c :: cs) = none := by
  rw [credMatchAt, if_neg h]

theorem credMatchAt_none_of_no_slash (cs : List Char) (h : ∀ c ∈ cs, c ≠ '/') :
    ∀ rep rest, credMatchAt cs = some (rep, rest) → False := by
  intro rep rest hm
  cases cs with
  | nil => cases hm
  | cons c l =>
    rw [credMatchAt_not_slash c l (h c (by simp))] at hm
    cases hm

theorem credMatchAt_head_slash (rep rest : List Char) :
    ∀ cs, credMatchAt cs = some (rep, rest) → ∃ tl, cs = '/' :: tl := by
  intro cs hm
  cases cs with
  | nil => cases hm
  | cons c l =>
    by_cases h : c = '/'
    · exact ⟨l, by rw [h]⟩
    · rw [credMatchAt_not_slash c l h] at hm
      cases hm

theorem redactChars_append (xs ys rep rest : List Char)
    (hxs : ∀ c ∈ xs, c ≠ '/') (hm : credMatchAt ys = some (rep, rest)) :
    redactChars (xs ++ ys) = xs ++ (rep ++ rest) := by
  induction xs with
  | nil =>
    obtain ⟨tl, htl⟩ := credMatchAt_head_slash rep rest ys hm
    subst htl
    rw [List.nil_append, redactChars, hm]
    rfl
  | cons a l ih =>
    have ha : a ≠ '/' := hxs a (by simp)
    have hl : ∀ c ∈ l, c ≠ '/' := fun c hc => hxs c (by simp [hc])
    rw [List.cons_append, redactChars, credMatchAt_not_slash a _ ha, ih hl]
    simp

theorem credMatchAt_credential (kwc id sec post : List Char)
    (hkw : kwc = ['b', 'o', 't'] ∨ kwc = ['u', 's', 'e', 'r'])
    (hid1 : id ≠ []) (hid2 : ∀ c ∈ id, c.isDigit = true)
    (hsec1 : sec ≠ []) (hsec2 : ∀ c ∈ sec, c ≠ '/') :
    credMatchAt ('/' :: (kwc ++ (id ++ ':' :: (sec ++ '/' :: post)))) =
      some ('/' :: (kwc ++ (id ++ ':' :: ("[REDACTED]".data ++ ['/']))), post) := by
  have hdig : (id ++ ':' :: (sec ++ '/' :: post)).takeWhile Char.isDigit = id := by
    rw [takeWhile_append_of_all _ _ _ hid2]
    simp [List.takeWhile_cons]
  have hdrop : (id ++ ':' :: (sec ++ '/' :: post)).dropWhile Char.isDigit =
      ':' :: (sec ++ '/' :: post) := by
    rw [dropWhile_append_of_all _ _ _ hid2]
    simp [List.dropWhile_cons]
  have hsectw : (sec ++ '/' :: post).takeWhile (fun c => decide (c ≠ '/')) = sec := by
    rw [takeWhile_append_of_all _ _ _ (fun c hc => decide_eq_true (hsec2 c hc))]
    simp [List.takeWhile_cons]
  have hsecdw : (sec ++ '/' :: post).dropWhile (fun c => decide (c ≠ '/')) = '/' :: post := by
    rw [dropWhile_append_of_all _ _ _ (fun c hc => decide_eq_true (hsec2 c hc))]
    simp [List.dropWhile_cons]
  rcases hkw with h | h <;> subst h
  · rw [credMatchAt, if_pos rfl]
    simp only [List.cons_append, List.nil_append]
    rw [if_pos (by simp [List.isPrefixOf])]
    dsimp only [List.drop]
    rw [hdig, hdrop, if_neg hid1]
    dsimp only
    rw [if_pos rfl, hsectw, hsecdw, if_neg hsec1]
    dsimp only
    rw [if_pos rfl]
    simp
  · rw [credMatchAt, if_pos rfl]
    simp only [List.cons_append, List.nil_append]
    rw [if_neg (by simp [List.isPrefixOf]), if_pos (by simp [List.isPrefixOf])]
    dsimp only [List.drop]
    rw [hdig, hdrop, if_neg hid1]
    dsimp only
    rw [if_pos rfl, hsectw, hsecdw, if_neg hsec1]
    dsimp only
    rw [if_pos rfl]
    simp

/-- Single-replacement semantics with a leftmost match: when no match
attempt starting inside `xs` succeeds and `ys` matches at its head, the
replacement happens exactly at the `ys` boundary. -/
theorem redactChars_leftmost (ys rep rest : List Char)
    (hm : credMatchAt ys = some (rep, rest)) :
    ∀ xs : List Char, (∀ n, n < xs.length → credMatchAt (xs.drop n ++ ys) = none) →
    redactChars (xs ++ ys) = xs ++ (rep ++ rest) := by
  intro xs
  induction xs with
  | nil =>
    intro _
    obtain ⟨tl, htl⟩ := credMatchAt_head_slash rep rest ys hm
    subst htl
    rw [List.nil_append, redactChars, hm]
    rfl
  | cons a l ih =>
    intro hno
    have h0 : credMatchAt (a :: (l ++ ys)) = none := by
      have := hno 0 (by simp)
      simpa using this
    have hih : ∀ n, n < l.length → credMatchAt (l.drop n ++ ys) = none := by
      intro n hn
      have := hno (n + 1) (by simp; omega)
      simpa using this
    rw [List.cons_append, redactChars, h0, ih hih]
    simp

/-- C8: for an error message of the form `<pre>/bot<id>:<secret>/<post>`
(or `user`) in which no credential match starts inside `<pre>` (the
credential path is the leftmost match; slashes in `<pre>`, as in an embedded
request URL, are fine as long as none opens a `/bot<digits>:`/`/user<digits>:`
span), with a nonempty digit id and a nonempty slash-free secret,
`redactToken` rewrites the message so that the secret is replaced by
`[REDACTED]`, leaving everything else intact; the redaction is a pure
transform of the message text, applied to any error re-raised by the
outbound dispatch path regardless of error kind. -/
theorem c8_redact_credential (pre kw id sec post : String)
    (hpre : ∀ n, n < pre.data.length →
      credMatchAt (pre.data.drop n ++
        ('/' :: (kw.data ++ (id.data ++ ':' :: (sec.data ++ '/' :: post.data))))) = none)
    (hkw : kw = "bot" ∨ kw = "user")
    (hid1 : id.data ≠ []) (hid2 : ∀ c ∈ id.data, c.isDigit = true)
    (hsec1 : sec.data ≠ []) (hsec2 : ∀ c ∈ sec.data, c ≠ '/') :
    redactToken (pre ++ "/" ++ kw ++ id ++ ":" ++ sec ++ "/" ++ post) =
      pre ++ "/" ++ kw ++ id ++ ":[REDACTED]/" ++ post := by
  have hkwc : kw.data = ['b', 'o', 't'] ∨ kw.data = ['u', 's', 'e', 'r'] := by
    rcases hkw with h | h <;> subst h
    · exact Or.inl rfl
    · exact Or.inr rfl
  have hm := credMatchAt_credential kw.data id.data sec.data post.data hkwc hid1 hid2 hsec1 hsec2
  have hdata : (pre ++ "/" ++ kw ++ id ++ ":" ++ sec ++ "/" ++ post).data =
      pre.data ++ ('/' :: (kw.data ++ (id.data ++ ':' :: (sec.data ++ '/' :: post.data)))) := by
    simp [String.data_append]
  rw [redactToken, hdata, redactChars_leftmost _ _ _ hm pre.data hpre]
  have hrhs : (pre ++ "/" ++ kw ++ id ++ ":[REDACTED]/" ++ post).data =
      pre.data ++ ('/' :: (kw.data ++ (id.data ++ ':' :: ("[REDACTED]".data ++ ['/']))) ++
        post.data) := by
    simp [String.data_append]
  conv_rhs => rw [← stringMk_data (pre ++ "/" ++ kw ++ id ++ ":[REDACTED]/" ++ post)]
  rw [hrhs]

/-- Witness for C8: a realistic transport error embedding the request URL,
`request to https://api.telegram.org/bot12345:ABCDEF/sendMessage failed`;
the slashes of `https://` and of the host path open no credential span, so
the `/bot12345:ABCDEF/` segment is the leftmost match. -/
theorem c8_redact_credential_witness :
    redactToken ("request to https://api.telegram.org" ++ "/" ++ "bot" ++ "12345" ++ ":" ++
        "ABCDEF" ++ "/" ++ "sendMessage failed") =
      "request to https://api.telegram.org" ++ "/" ++ "bot" ++ "12345" ++ ":[REDACTED]/" ++
        "sendMessage failed" :=
  c8_redact_credential "request to https://api.telegram.org" "bot" "12345" "ABCDEF"
    "sendMessage failed" (by decide) (Or.inl rfl) (by decide) (by decide) (by decide) (by decide)

/-- Payload of the C2 counterexample: a buffer-backed `photo` (forcing
multipart mode) and an empty-object `thumb`, whose attachment ref carries
neither `url` nor `source`. -/
def payloadC2 : JObj :=
  .cons "photo" (.obj (.cons "source" (.buffer [1]) .nil)) (.cons "thumb" (.obj .nil) .nil)

/-- Counterexample to C2 as stated: the `thumb` branch generates a fresh id
and emits the `attach://<id>` textual part, but the media resolver emits no
binary part for a ref with neither `url` nor a usable `source`; the encoded
call carries a dangling `attach://<id>` token with zero parts named `<id>`. -/
theorem c2_dangling_token_cex :
    includesMedia payloadC2 = .ok true ∧
    buildFormDataConfig fsNoneEnv payloadC2 =
      .ok ⟨"POST", true, "BOUNDARY",
        [⟨"photo", some "photo.jpg", .binary (.buf [1])⟩,
         ⟨"thumb", none, .attachRef (genId 0)⟩]⟩ ∧
    partsTokens
        ([⟨"photo", some "photo.jpg", .binary (.buf [1])⟩,
          ⟨"thumb", none, .attachRef (genId 0)⟩] : List FormPart) = [genId 0] ∧
    List.countP (fun pt => pt.name = genId 0)
        ([⟨"photo", some "photo.jpg", .binary (.buf [1])⟩,
          ⟨"thumb", none, .attachRef (genId 0)⟩] : List FormPart) = 0 := by
  refine ⟨by decide, by decide, by decide, by decide⟩

/-- Group item of the C5 counterexample: object-valued `media` and `thumb`
(under the key `thumb`, not `thumbnail`), plus a `type` sibling. -/
def itemC5 : JVal :=
  .obj (.cons "media" (.obj (.cons "url" (.str "u") .nil))
    (.cons "thumb" (.obj (.cons "url" (.str "v") .nil))
      (.cons "type" (.str "photo") .nil)))

/-- The item as actually rewritten by the code. -/
def itemC5out : JVal :=
  .obj (.cons "media" (.str ("attach://" ++ genId 0))
    (.cons "thumb" (.obj (.cons "url" (.str "v") .nil))
      (.cons "type" (.str "photo")
        (.cons "thumbnail" (.str ("attach://" ++ genId 1)) .nil))))

/-- Counterexample to C5 as stated: for an item carrying its thumbnail under
the `thumb` key, the rewrite `{...item, media: ..., thumbnail: ...}` does not
replace the `thumb` sub-field — the original object survives untouched — and
instead adds a new `thumbnail` key that was not among the input's sub-fields,
so the thumbnail sub-field is not "replaced" and the siblings are not "left
untouched" as claimed. -/
theorem c5_thumb_sibling_cex :
    attachFormValue fsNoneEnv "md" (.arr (.cons itemC5 .nil)) ⟨0, []⟩ =
      .ok ⟨2, [⟨genId 0, some (genId 0 ++ ".dat"), .binary (.fetched "u")⟩,
               ⟨genId 1, some (genId 1 ++ ".dat"), .binary (.fetched "v")⟩,
               ⟨"md", none, .jsonBody (.arr (.cons itemC5out .nil))⟩]⟩ ∧
    objGetD itemC5out "thumb" = .obj (.cons "url" (.str "v") .nil) ∧
    objGetD itemC5 "thumbnail" = .undefV ∧
    objGetD itemC5out "thumbnail" = .str ("attach://" ++ genId 1) := by
  refine ⟨by decide, by decide, by decide, by decide⟩

theorem genId_inj (i j : Nat) (h : genId i = genId j) : i = j := by
  have hd : ('$' :: List.replicate i 'x') = ('$' :: List.replicate j 'x') := congrArg String.data h
  have hrep : List.replicate i 'x' = List.replicate j 'x' := by injection hd
  have := congrArg List.length hrep
  simpa using this

theorem genId_starts (n : Nat) : strStarts (genId n) "$" = true := by
  cases n <;> rfl

theorem ne_genId_of_not_starts (k : String) (hk : strStarts k "$" = false) (n : Nat) :
    k ≠ genId n := by
  intro h
  rw [h, genId_starts] at hk
  cases hk

theorem isPrefixOf_append_self (l m : List Char) : l.isPrefixOf (l ++ m) = true := by
  induction l with
  | nil => simp [List.isPrefixOf]
  | cons a as ih => simp [List.isPrefixOf, ih]

theorem tokenOf_attach (i : String) : tokenOf ("attach://" ++ i) = [i] := by
  rw [tokenOf]
  rw [if_pos (by rw [String.data_append]; exact isPrefixOf_append_self _ _)]
  rw [String.data_append]
  rfl

theorem jobjGet_jobjSet_self (fs : JObj) (k : String) (x : JVal) :
    jobjGet (jobjSet fs k x) k = some x := by
  induction fs using jobjInduction with
  | hnil => simp [jobjSet, jobjGet]
  | hcons k2 v fs ih =>
    by_cases h : k2 = k
    · simp [jobjSet, jobjGet, h]
    · simp [jobjSet, jobjGet, h, ih]

theorem jobjGet_jobjSet_other (fs : JObj) (k k2 : String) (x : JVal) (h : k2 ≠ k) :
    jobjGet (jobjSet fs k x) k2 = jobjGet fs k2 := by
  have hne : k ≠ k2 := Ne.symm h
  induction fs using jobjInduction with
  | hnil => simp [jobjSet, jobjGet, hne]
  | hcons k3 v fs ih =>
    by_cases h3 : k3 = k
    · subst h3
      simp [jobjSet, jobjGet, hne]
    · by_cases h2 : k3 = k2 <;> simp [jobjSet, jobjGet, h2, h3, ih, h]

theorem objGetD_jvalSet_self (fs : JObj) (k : String) (x : JVal) :
    objGetD (jvalSet (.obj fs) k x) k = x := by
  simp [jvalSet, objGetD, jobjGet_jobjSet_self]

theorem objGetD_jvalSet_other (fs : JObj) (k k2 : String) (x : JVal) (h : k2 ≠ k) :
    objGetD (jvalSet (.obj fs) k x) k2 = objGetD (.obj fs) k2 := by
  simp [jvalSet, objGetD, jobjGet_jobjSet_other fs k k2 x h]

theorem jobjTokens_jobjSet (fs : JObj) (k : String) (x : JVal) :
    ∀ s ∈ jobjTokens (jobjSet fs k x), s ∈ jobjTokens fs ∨ s ∈ jvalTokens x := by
  induction fs using jobjInduction with
  | hnil =>
    intro s hs
    simp [jobjSet, jobjTokens] at hs
    exact Or.inr hs
  | hcons k2 v fs ih =>
    intro s hs
    by_cases h : k2 = k
    · rw [jobjSet, if_pos h] at hs
      rw [jobjTokens] at hs
      rcases List.mem_append.mp hs with h1 | h1
      · exact Or.inr h1
      · exact Or.inl (by rw [jobjTokens]; exact List.mem_append.mpr (Or.inr h1))
    · rw [jobjSet, if_neg h] at hs
      rw [jobjTokens] at hs
      rcases List.mem_append.mp hs with h1 | h1
      · exact Or.inl (by rw [jobjTokens]; exact List.mem_append.mpr (Or.inl h1))
      · rcases ih s h1 with h2 | h2
        · exact Or.inl (by rw [jobjTokens]; exact List.mem_append.mpr (Or.inr h2))
        · exact Or.inr h2

theorem jvalTokens_jvalSet (v : JVal) (k : String) (x : JVal) :
    ∀ s ∈ jvalTokens (jvalSet v k x), s ∈ jvalTokens v ∨ s ∈ jvalTokens x := by
  intro s hs
  cases v with
  | obj fs =>
    simp only [jvalSet, jvalTokens] at hs
    exact (jobjTokens_jobjSet fs k x s hs).imp (fun h => by simp only [jvalTokens]; exact h) id
  | null => exact Or.inr (by simpa [jvalSet, jvalTokens, jobjTokens] using hs)
  | undefV => exact Or.inr (by simpa [jvalSet, jvalTokens, jobjTokens] using hs)
  | bool b => exact Or.inr (by simpa [jvalSet, jvalTokens, jobjTokens] using hs)
  | num n => exact Or.inr (by simpa [jvalSet, jvalTokens, jobjTokens] using hs)
  | str t => exact Or.inr (by simpa [jvalSet, jvalTokens, jobjTokens] using hs)
  | arr xs => exact Or.inr (by simpa [jvalSet, jvalTokens, jobjTokens] using hs)
  | buffer d => exact Or.inr (by simpa [jvalSet, jvalTokens, jobjTokens] using hs)
  | stream t => exact Or.inr (by simpa [jvalSet, jvalTokens, jobjTokens] using hs)

theorem attachFormMedia_parts (env : MClient) (m : JVal) (i : String) (st st2 : EncSt)
    (h : attachFormMedia env m i st = .ok st2) :
    st2.nextId = st.nextId ∧ ∃ op, attachFormMediaPart env m i = .ok op ∧
      st2.parts = st.parts ++ op.toList := by
  rw [attachFormMedia] at h
  rcases hp : attachFormMediaPart env m i with e | op <;> rw [hp] at h
  · cases h
  · cases h
    exact ⟨rfl, op, rfl, rfl⟩

theorem filter_name_le_one (l : List FormPart) (hl : l.length ≤ 1) (s : String) :
    (l.filter (fun pt => pt.name = s)).length ≤ 1 :=
  le_trans (List.length_filter_le _ _) hl

theorem filter_name_zero (l : List FormPart) (s : String) (h : ∀ pt ∈ l, pt.name ≠ s) :
    (l.filter (fun pt => pt.name = s)).length = 0 := by
  have hnil : l.filter (fun pt => pt.name = s) = [] := by
    rw [List.filter_eq_nil_iff]
    intro pt hpt
    simp [h pt hpt]
  rw [hnil]
  rfl

theorem attachGroupItem_parts (env : MClient) (item : JVal) (st : EncSt) (it2 : JVal)
    (st2 : EncSt) (h : attachGroupItem env item st = .ok (it2, st2)) :
    st.nextId ≤ st2.nextId ∧
    ∃ new, st2.parts = st.parts ++ new ∧
      (∀ pt ∈ new, ∃ j, st.nextId ≤ j ∧ j < st2.nextId ∧ pt.name = genId j ∧ pt.isBin = true ∧
        partTokens pt = []) ∧
      (∀ j, (new.filter (fun pt => pt.name = genId j)).length ≤ 1) ∧
      (∀ s ∈ jvalTokens it2, s ∈ jvalTokens item ∨
        ∃ j, st.nextId ≤ j ∧ j < st2.nextId ∧ s = genId j) := by
  rw [attachGroupItem] at h
  rcases hm : getPropE item "media" with e | m <;> rw [hm] at h
  · cases h
  · dsimp only at h
    split at h
    · cases h
      refine ⟨le_refl _, [], by simp, by simp, by simp, fun s hs => Or.inl hs⟩
    · rcases hf : attachFormMedia env m (genId st.nextId) ⟨st.nextId + 1, st.parts⟩
        with e | st1 <;> rw [hf] at h
      · cases h
      · obtain ⟨hn1, op1, hop1, hp1⟩ := attachFormMedia_parts env m (genId st.nextId) _ _ hf
        have hsh1 := attachFormMediaPart_shape env m (genId st.nextId) op1 hop1
        dsimp only at h hn1 hp1
        split at h
        · rcases hf2 : attachFormMedia env (thumbVal item) (genId st1.nextId)
            ⟨st1.nextId + 1, st1.parts⟩ with e | st3 <;> rw [hf2] at h
          · cases h
          · obtain ⟨hn2, op2, hop2, hp2⟩ :=
              attachFormMedia_parts env (thumbVal item) (genId st1.nextId) _ _ hf2
            have hsh2 := attachFormMediaPart_shape env (thumbVal item) (genId st1.nextId) op2 hop2
            dsimp only at hn2 hp2
            cases h
            refine ⟨by omega, op1.toList ++ op2.toList, ?_, ?_, ?_, ?_⟩
            · rw [hp2, hp1, List.append_assoc]
            · intro pt hpt
              rcases List.mem_append.mp hpt with h1 | h1
              · obtain ⟨hna, hba, hta⟩ := hsh1 pt h1
                exact ⟨st.nextId, le_refl _, by omega, hna, hba, hta⟩
              · obtain ⟨hna, hba, hta⟩ := hsh2 pt h1
                exact ⟨st1.nextId, by omega, by omega, hna, hba, hta⟩
            · intro j
              rw [List.filter_append, List.length_append]
              by_cases hj : j = st.nextId
              · have hz : (op2.toList.filter (fun pt => pt.name = genId j)).length = 0 := by
                  refine filter_name_zero _ _ (fun pt hpt => ?_)
                  rw [(hsh2 pt hpt).1, hj]
                  intro hc
                  have := genId_inj _ _ hc
                  omega
                have ho : (op1.toList.filter (fun pt => pt.name = genId j)).length ≤ 1 :=
                  filter_name_le_one _ (by cases op1 <;> simp) _
                omega
              · have hz : (op1.toList.filter (fun pt => pt.name = genId j)).length = 0 := by
                  refine filter_name_zero _ _ (fun pt hpt => ?_)
                  rw [(hsh1 pt hpt).1]
                  intro hc
                  exact hj (genId_inj _ _ hc).symm
                have ho : (op2.toList.filter (fun pt => pt.name = genId j)).length ≤ 1 :=
                  filter_name_le_one _ (by cases op2 <;> simp) _
                omega
            · intro s hs
              rcases jvalTokens_jvalSet _ "thumbnail" _ s hs with h1 | h1
              · rcases jvalTokens_jvalSet _ "media" _ s h1 with h2 | h2
                · exact Or.inl h2
                · rw [jvalTokens, tokenOf_attach] at h2
                  simp at h2
                  exact Or.inr ⟨st.nextId, le_refl _, by omega, h2⟩
              · rw [jvalTokens, tokenOf_attach] at h1
                simp at h1
                exact Or.inr ⟨st1.nextId, by omega, by omega, h1⟩
        · cases h
          refine ⟨by omega, op1.toList, by rw [hp1], ?_, ?_, ?_⟩
          · intro pt hpt
            obtain ⟨hna, hba, hta⟩ := hsh1 pt hpt
            exact ⟨st.nextId, le_refl _, by omega, hna, hba, hta⟩
          · intro j
            exact filter_name_le_one _ (by cases op1 <;> simp) _
          · intro s hs
            rcases jvalTokens_jvalSet _ "media" _ s hs with h1 | h1
            · exact Or.inl h1
            · rw [jvalTokens, tokenOf_attach] at h1
              simp at h1
              exact Or.inr ⟨st.nextId, le_refl _, by omega, h1⟩

theorem attachGroupItems_parts (env : MClient) (xs : JArr) :
    ∀ (st : EncSt) (items : JArr) (st2 : EncSt),
    attachGroupItems env xs st = .ok (items, st2) →
    st.nextId ≤ st2.nextId ∧
    ∃ new, st2.parts = st.parts ++ new ∧
      (∀ pt ∈ new, ∃ j, st.nextId ≤ j ∧ j < st2.nextId ∧ pt.name = genId j ∧ pt.isBin = true ∧
        partTokens pt = []) ∧
      (∀ j, (new.filter (fun pt => pt.name = genId j)).length ≤ 1) ∧
      (∀ s ∈ jarrTokens items, s ∈ jarrTokens xs ∨
        ∃ j, st.nextId ≤ j ∧ j < st2.nextId ∧ s = genId j) := by
  induction xs using jarrInduction with
  | hnil =>
    intro st items st2 h
    rw [attachGroupItems] at h
    cases h
    exact ⟨le_refl _, [], by simp, by simp, by simp, by simp [jarrTokens]⟩
  | hcons x xs ih =>
    intro st items st2 h
    rw [attachGroupItems] at h
    rcases h1 : attachGroupItem env x st with e | pr <;> rw [h1] at h
    · cases h
    · obtain ⟨x2, st1⟩ := pr
      dsimp only at h
      rcases h2 : attachGroupItems env xs st1 with e | pr2 <;> rw [h2] at h
      · cases h
      · obtain ⟨items2, st3⟩ := pr2
        dsimp only at h
        cases h
        obtain ⟨hle1, new1, hp1, hname1, hcnt1, htok1⟩ :=
          attachGroupItem_parts env x st x2 st1 h1
        obtain ⟨hle2, new2, hp2, hname2, hcnt2, htok2⟩ := ih st1 items2 _ h2
        refine ⟨le_trans hle1 hle2, new1 ++ new2, ?_, ?_, ?_, ?_⟩
        · rw [hp2, hp1, List.append_assoc]
        · intro pt hpt
          rcases List.mem_append.mp hpt with hm | hm
          · obtain ⟨j, ha, hb, hc, hd, he⟩ := hname1 pt hm
            exact ⟨j, ha, by omega, hc, hd, he⟩
          · obtain ⟨j, ha, hb, hc, hd, he⟩ := hname2 pt hm
            exact ⟨j, by omega, hb, hc, hd, he⟩
        · intro j
          rw [List.filter_append, List.length_append]
          by_cases hz1 : (new1.filter (fun pt => pt.name = genId j)).length = 0
          · have := hcnt2 j
            omega
          · have hj1 : j < st1.nextId := by
              have hex : ∃ pt ∈ new1, pt.name = genId j := by
                rcases hlf : new1.filter (fun pt => pt.name = genId j) with _ | ⟨pt, l⟩
                · exact absurd (by rw [hlf]; rfl) hz1
                · have hmem : pt ∈ new1.filter (fun pt => pt.name = genId j) := by
                    rw [hlf]; exact List.mem_cons_self _ _
                  have := List.mem_filter.mp hmem
                  exact ⟨pt, this.1, by simpa using this.2⟩
              obtain ⟨pt, hmem, hnm⟩ := hex
              obtain ⟨j2, ha, hb, hc, _, _⟩ := hname1 pt hmem
              rw [hnm] at hc
              rw [genId_inj _ _ hc]
              exact hb
            have hz2 : (new2.filter (fun pt => pt.name = genId j)).length = 0 := by
              refine filter_name_zero _ _ (fun pt hpt => ?_)
              obtain ⟨j2, ha, hb, hc, _, _⟩ := hname2 pt hpt
              rw [hc]
              intro hcon
              have := genId_inj _ _ hcon
              omega
            have := hcnt1 j
            omega
        · intro s hs
          rw [jarrTokens] at hs
          rcases List.mem_append.mp hs with hm | hm
          · rcases htok1 s hm with h | ⟨j, ha, hb, hc⟩
            · exact Or.inl (by rw [jarrTokens]; exact List.mem_append.mpr (Or.inl h))
            · exact Or.inr ⟨j, ha, by omega, hc⟩
          · rcases htok2 s hm with h | ⟨j, ha, hb, hc⟩
            · exact Or.inl (by rw [jarrTokens]; exact List.mem_append.mpr (Or.inr h))
            · exact Or.inr ⟨j, by omega, hb, hc⟩

theorem attachFormValue_str (env : MClient) (k s : String) (st : EncSt) :
    attachFormValue env k (.str s) st =
      .ok ⟨st.nextId, st.parts ++ [⟨k, none, .scalarText (.str s)⟩]⟩ := by
  simp [attachFormValue, JVal.isNullish, isScalar]

theorem attachFormValue_undefV (env : MClient) (k : String) (st : EncSt) :
    attachFormValue env k .undefV st = .ok st := by
  simp [attachFormValue, JVal.isNullish]

theorem partsTokens_nil (l : List FormPart) (h : ∀ pt ∈ l, partTokens pt = []) :
    l.flatMap partTokens = [] := by
  induction l with
  | nil => rfl
  | cons pt l ih =>
    rw [List.flatMap_cons, h pt (by simp)]
    exact ih (fun q hq => h q (by simp [hq]))

theorem attachFormValue_fallback_parts (env : MClient) (k : String) (v : JVal) (st st2 : EncSt)
    (hk : strStarts k "$" = false) (h : attachFormMedia env v k st = .ok st2) :
    st.nextId ≤ st2.nextId ∧
    ∃ new, st2.parts = st.parts ++ new ∧
      (∀ pt ∈ new, pt.name = k ∨
        ∃ j, st.nextId ≤ j ∧ j < st2.nextId ∧ pt.name = genId j ∧ pt.isBin = true) ∧
      (∀ j, (new.filter (fun pt => pt.name = genId j)).length ≤ 1) ∧
      (∀ s ∈ partsTokens new, s ∈ jvalTokens v ∨
        ∃ j, st.nextId ≤ j ∧ j < st2.nextId ∧ s = genId j) := by
  obtain ⟨hn, op, hop, hp⟩ := attachFormMedia_parts env v k st st2 h
  have hsh := attachFormMediaPart_shape env v k op hop
  refine ⟨by omega, op.toList, hp, ?_, ?_, ?_⟩
  · intro pt hpt
    exact Or.inl (hsh pt hpt).1
  · intro j
    have hz : (op.toList.filter (fun pt => pt.name = genId j)).length = 0 := by
      refine filter_name_zero _ _ (fun pt hpt => ?_)
      rw [(hsh pt hpt).1]
      exact ne_genId_of_not_starts k hk j
    omega
  · intro s hs
    rw [partsTokens, partsTokens_nil op.toList (fun pt hpt => (hsh pt hpt).2.2)] at hs
    cases hs

theorem attachFormValue_parts (env : MClient) (k : String) (v : JVal) (st st2 : EncSt)
    (hk : strStarts k "$" = false)
    (h : attachFormValue env k v st = .ok st2) :
    st.nextId ≤ st2.nextId ∧
    ∃ new, st2.parts = st.parts ++ new ∧
      (∀ pt ∈ new, pt.name = k ∨
        ∃ j, st.nextId ≤ j ∧ j < st2.nextId ∧ pt.name = genId j ∧ pt.isBin = true) ∧
      (∀ j, (new.filter (fun pt => pt.name = genId j)).length ≤ 1) ∧
      (∀ s ∈ partsTokens new, s ∈ jvalTokens v ∨
        ∃ j, st.nextId ≤ j ∧ j < st2.nextId ∧ s = genId j) := by
  rw [attachFormValue.eq_def] at h
  by_cases hnl : v.isNullish = true
  · rw [if_pos hnl] at h
    cases h
    exact ⟨le_refl _, [], by simp, by simp, by simp, by simp [partsTokens]⟩
  · rw [if_neg hnl] at h
    by_cases hsc : isScalar v = true
    · rw [if_pos hsc] at h
      cases h
      refine ⟨le_refl _, [⟨k, none, .scalarText v⟩], rfl, ?_, ?_, ?_⟩
      · intro pt hpt
        rw [List.mem_singleton] at hpt
        subst hpt
        exact Or.inl rfl
      · intro j
        have hz : (([⟨k, none, .scalarText v⟩] : List FormPart).filter
            (fun pt => pt.name = genId j)).length = 0 := by
          refine filter_name_zero _ _ (fun pt hpt => ?_)
          rw [List.mem_singleton] at hpt
          subst hpt
          exact ne_genId_of_not_starts k hk j
        omega
      · intro s hs
        simp only [partsTokens, List.flatMap_cons, List.flatMap_nil, List.append_nil,
          partTokens] at hs
        exact Or.inl hs
    · rw [if_neg hsc] at h
      by_cases hth : (k = "thumb" || k = "thumbnail") = true
      · rw [if_pos hth] at h
        dsimp only at h
        rcases hf : attachFormMedia env v (genId st.nextId) ⟨st.nextId + 1, st.parts⟩
          with e | st1 <;> rw [hf] at h
        · cases h
        · obtain ⟨hn1, op1, hop1, hp1⟩ := attachFormMedia_parts env v (genId st.nextId) _ _ hf
          have hsh1 := attachFormMediaPart_shape env v (genId st.nextId) op1 hop1
          dsimp only at hn1 hp1
          cases h
          refine ⟨by dsimp only; omega, op1.toList ++ [⟨k, none, .attachRef (genId st.nextId)⟩],
            by dsimp only; rw [hp1, List.append_assoc], ?_, ?_, ?_⟩
          · intro pt hpt
            rcases List.mem_append.mp hpt with hm | hm
            · obtain ⟨hna, hba, _⟩ := hsh1 pt hm
              exact Or.inr ⟨st.nextId, le_refl _, by dsimp only; omega, hna, hba⟩
            · rw [List.mem_singleton] at hm
              subst hm
              exact Or.inl rfl
          · intro j
            rw [List.filter_append, List.length_append]
            have hz : (([⟨k, none, .attachRef (genId st.nextId)⟩] :
                List FormPart).filter (fun pt => pt.name = genId j)).length = 0 := by
              refine filter_name_zero _ _ (fun pt hpt => ?_)
              rw [List.mem_singleton] at hpt
              subst hpt
              exact ne_genId_of_not_starts k hk j
            have ho : (op1.toList.filter (fun pt => pt.name = genId j)).length ≤ 1 :=
              filter_name_le_one _ (by cases op1 <;> simp) _
            omega
          · intro s hs
            rw [partsTokens, List.flatMap_append,
              partsTokens_nil op1.toList (fun pt hpt => (hsh1 pt hpt).2.2)] at hs
            simp only [List.nil_append, List.flatMap_cons, List.flatMap_nil, List.append_nil,
              partTokens, List.mem_singleton] at hs
            subst hs
            exact Or.inr ⟨st.nextId, le_refl _, by dsimp only; omega, rfl⟩
      · rw [if_neg hth] at h
        cases v with
        | null => simp [JVal.isNullish] at hnl
        | undefV => simp [JVal.isNullish] at hnl
        | bool b => simp [isScalar] at hsc
        | num n => simp [isScalar] at hsc
        | str t => simp [isScalar] at hsc
        | arr xs =>
          dsimp only at h
          rcases hg : attachGroupItems env xs st with e | pr <;> rw [hg] at h
          · cases h
          · obtain ⟨items, st1⟩ := pr
            dsimp only at h
            cases h
            obtain ⟨hle, gnew, hp1, hname1, hcnt1, htok1⟩ :=
              attachGroupItems_parts env xs st items st1 hg
            refine ⟨by dsimp only; omega, gnew ++ [⟨k, none, .jsonBody (.arr items)⟩],
              by dsimp only; rw [hp1, List.append_assoc], ?_, ?_, ?_⟩
            · intro pt hpt
              rcases List.mem_append.mp hpt with hm | hm
              · obtain ⟨j, ha, hb, hc, hd, _⟩ := hname1 pt hm
                exact Or.inr ⟨j, ha, by dsimp only; omega, hc, hd⟩
              · rw [List.mem_singleton] at hm
                subst hm
                exact Or.inl rfl
            · intro j
              rw [List.filter_append, List.length_append]
              have hz : (([⟨k, none, .jsonBody (.arr items)⟩] :
                  List FormPart).filter (fun pt => pt.name = genId j)).length = 0 := by
                refine filter_name_zero _ _ (fun pt hpt => ?_)
                rw [List.mem_singleton] at hpt
                subst hpt
                exact ne_genId_of_not_starts k hk j
              have := hcnt1 j
              omega
            · intro s hs
              rw [partsTokens, List.flatMap_append,
                partsTokens_nil gnew
                  (fun pt hpt => (hname1 pt hpt).choose_spec.2.2.2.2)] at hs
              simp only [List.nil_append, List.flatMap_cons, List.flatMap_nil, List.append_nil,
                partTokens] at hs
              rw [jvalTokens] at hs
              rcases htok1 s hs with hm | ⟨j, ha, hb, hc⟩
              · exact Or.inl (by rw [jvalTokens]; exact hm)
              · exact Or.inr ⟨j, ha, by dsimp only; omega, hc⟩
        | buffer d =>
          dsimp only at h
          rw [if_pos (by simp [truthy, typeofJ])] at h
          dsimp only [hasPropE, jsInE] at h
          rw [if_neg (by simp)] at h
          exact attachFormValue_fallback_parts env k _ st st2 hk h
        | stream t =>
          dsimp only at h
          rw [if_pos (by simp [truthy, typeofJ])] at h
          dsimp only [hasPropE, jsInE] at h
          rw [if_neg (by simp)] at h
          exact attachFormValue_fallback_parts env k _ st st2 hk h
        | obj fs =>
          dsimp only at h
          rw [if_pos (by simp [truthy, typeofJ])] at h
          dsimp only [hasPropE, jsInE] at h
          by_cases hm : jobjHas fs "media" = true
          · rw [if_pos hm] at h
            by_cases hc : (jobjHas fs "type" &&
                !(objGetD (.obj fs) "media").isUndefV && !(objGetD (.obj fs) "type").isUndefV) = true
            · rw [if_pos hc] at h
              try dsimp only at h
              rcases hf : attachFormMedia env (objGetD (.obj fs) "media") (genId st.nextId)
                ⟨st.nextId + 1, st.parts⟩ with e | st1 <;> rw [hf] at h
              · cases h
              · obtain ⟨hn1, op1, hop1, hp1⟩ :=
                  attachFormMedia_parts env (objGetD (.obj fs) "media") (genId st.nextId) _ _ hf
                have hsh1 := attachFormMediaPart_shape env (objGetD (.obj fs) "media")
                  (genId st.nextId) op1 hop1
                dsimp only at hn1 hp1
                cases h
                refine ⟨by dsimp only; omega, op1.toList ++
                  [⟨k, none, .jsonBody (jvalSet (.obj fs) "media"
                    (.str ("attach://" ++ genId st.nextId)))⟩],
                  by dsimp only; rw [hp1, List.append_assoc], ?_, ?_, ?_⟩
                · intro pt hpt
                  rcases List.mem_append.mp hpt with hq | hq
                  · obtain ⟨hna, hba, _⟩ := hsh1 pt hq
                    exact Or.inr ⟨st.nextId, le_refl _, by dsimp only; omega, hna, hba⟩
                  · rw [List.mem_singleton] at hq
                    subst hq
                    exact Or.inl rfl
                · intro j
                  rw [List.filter_append, List.length_append]
                  have hz : (([⟨k, none, .jsonBody (jvalSet (.obj fs) "media"
                      (.str ("attach://" ++ genId st.nextId)))⟩] :
                      List FormPart).filter (fun pt => pt.name = genId j)).length = 0 := by
                    refine filter_name_zero _ _ (fun pt hpt => ?_)
                    rw [List.mem_singleton] at hpt
                    subst hpt
                    exact ne_genId_of_not_starts k hk j
                  have ho : (op1.toList.filter (fun pt => pt.name = genId j)).length ≤ 1 :=
                    filter_name_le_one _ (by cases op1 <;> simp) _
                  omega
                · intro s hs
                  rw [partsTokens, List.flatMap_append,
                    partsTokens_nil op1.toList (fun pt hpt => (hsh1 pt hpt).2.2)] at hs
                  simp only [List.nil_append, List.flatMap_cons, List.flatMap_nil,
                    List.append_nil, partTokens] at hs
                  rcases jvalTokens_jvalSet (.obj fs) "media" _ s hs with hq | hq
                  · exact Or.inl hq
                  · rw [jvalTokens, tokenOf_attach] at hq
                    rw [List.mem_singleton] at hq
                    subst hq
                    exact Or.inr ⟨st.nextId, le_refl _, by dsimp only; omega, rfl⟩
            · rw [if_neg hc] at h
              exact attachFormValue_fallback_parts env k _ st st2 hk h
          · rw [if_neg hm] at h
            exact attachFormValue_fallback_parts env k _ st st2 hk h

theorem attachEntries_parts (env : MClient) (p : JObj) :
    ∀ (st st2 : EncSt),
    (∀ k ∈ jobjKeys p, strStarts k "$" = false) →
    attachEntries env p st = .ok st2 →
    st.nextId ≤ st2.nextId ∧
    ∃ new, st2.parts = st.parts ++ new ∧
      (∀ pt ∈ new, pt.name ∈ jobjKeys p ∨
        ∃ j, st.nextId ≤ j ∧ j < st2.nextId ∧ pt.name = genId j ∧ pt.isBin = true) ∧
      (∀ j, (new.filter (fun pt => pt.name = genId j)).length ≤ 1) ∧
      (∀ s ∈ partsTokens new, s ∈ jobjTokens p ∨
        ∃ j, st.nextId ≤ j ∧ j < st2.nextId ∧ s = genId j) := by
  induction p using jobjInduction with
  | hnil =>
    intro st st2 hks h
    rw [attachEntries] at h
    cases h
    exact ⟨le_refl _, [], by simp, by simp, by simp, by simp [partsTokens]⟩
  | hcons k v fs ih =>
    intro st st2 hks h
    rw [attachEntries] at h
    rcases h1 : attachFormValue env k v st with e | st1 <;> rw [h1] at h
    · cases h
    · dsimp only at h
      have hkk : strStarts k "$" = false := hks k (by rw [jobjKeys]; simp)
      have hkfs : ∀ k2 ∈ jobjKeys fs, strStarts k2 "$" = false := fun k2 hk2 =>
        hks k2 (by rw [jobjKeys]; simp [hk2])
      obtain ⟨hle1, new1, hp1, hname1, hcnt1, htok1⟩ :=
        attachFormValue_parts env k v st st1 hkk h1
      obtain ⟨hle2, new2, hp2, hname2, hcnt2, htok2⟩ := ih st1 st2 hkfs h
      refine ⟨le_trans hle1 hle2, new1 ++ new2, ?_, ?_, ?_, ?_⟩
      · rw [hp2, hp1, List.append_assoc]
      · intro pt hpt
        rcases List.mem_append.mp hpt with hm | hm
        · rcases hname1 pt hm with hn | ⟨j, ha, hb, hc, hd⟩
          · exact Or.inl (by rw [jobjKeys, hn]; exact List.mem_cons_self _ _)
          · exact Or.inr ⟨j, ha, by omega, hc, hd⟩
        · rcases hname2 pt hm with hn | ⟨j, ha, hb, hc, hd⟩
          · exact Or.inl (by rw [jobjKeys]; exact List.mem_cons_of_mem _ hn)
          · exact Or.inr ⟨j, by omega, hb, hc, hd⟩
      · intro j
        rw [List.filter_append, List.length_append]
        by_cases hz1 : (new1.filter (fun pt => pt.name = genId j)).length = 0
        · have := hcnt2 j
          omega
        · have hj1 : j < st1.nextId := by
            have hex : ∃ pt ∈ new1, pt.name = genId j := by
              rcases hlf : new1.filter (fun pt => pt.name = genId j) with _ | ⟨pt, l⟩
              · exact absurd (by rw [hlf]; rfl) hz1
              · have hmem : pt ∈ new1.filter (fun pt => pt.name = genId j) := by
                  rw [hlf]
                  exact List.mem_cons_self _ _
                have := List.mem_filter.mp hmem
                exact ⟨pt, this.1, by simpa using this.2⟩
            obtain ⟨pt, hmem, hnm⟩ := hex
            rcases hname1 pt hmem with hn | ⟨j2, ha, hb, hc, _⟩
            · exact absurd (hn.symm.trans hnm) (ne_genId_of_not_starts k hkk j)
            · rw [hnm] at hc
              rw [genId_inj _ _ hc]
              exact hb
          have hz2 : (new2.filter (fun pt => pt.name = genId j)).length = 0 := by
            refine filter_name_zero _ _ (fun pt hpt => ?_)
            rcases hname2 pt hpt with hn | ⟨j2, ha, hb, hc, _⟩
            · exact ne_genId_of_not_starts _ (hkfs _ hn) j
            · rw [hc]
              intro hcon
              have := genId_inj _ _ hcon
              omega
          have := hcnt1 j
          omega
      · intro s hs
        rw [partsTokens, List.flatMap_append] at hs
        rcases List.mem_append.mp hs with hm | hm
        · rcases htok1 s hm with hq | ⟨j, ha, hb, hc⟩
          · exact Or.inl (by rw [jobjTokens]; exact List.mem_append.mpr (Or.inl hq))
          · exact Or.inr ⟨j, ha, by omega, hc⟩
        · rcases htok2 s hm with hq | ⟨j, ha, hb, hc⟩
          · exact Or.inl (by rw [jobjTokens]; exact List.mem_append.mpr (Or.inr hq))
          · exact Or.inr ⟨j, by omega, hb, hc⟩

theorem jobjKeys_jobjSet_of_has (p : JObj) (f : String) (x : JVal) :
    jobjHas p f = true → jobjKeys (jobjSet p f x) = jobjKeys p := by
  induction p using jobjInduction with
  | hnil => intro h; cases h
  | hcons k v fs ih =>
    intro h
    by_cases hkf : k = f
    · simp [jobjSet, jobjKeys, hkf]
    · have hh : jobjHas fs f = true := by
        rw [jobjHas] at h
        rcases Bool.or_eq_true _ _ |>.mp h with hx | hx
        · exact absurd (of_decide_eq_true hx) hkf
        · exact hx
      simp [jobjSet, jobjKeys, hkf, ih hh]

theorem jobjKeys_setJsonField (p : JObj) (f : String) :
    jobjKeys (setJsonField p f) = jobjKeys p := by
  rw [setJsonField]
  split
  · rename_i hcond
    exact jobjKeys_jobjSet_of_has p f _ (Bool.and_eq_true _ _ |>.mp hcond).1
  · rfl

theorem jobjKeys_prePass (p : JObj) : jobjKeys (prePass p) = jobjKeys p := by
  rw [prePass, FORM_DATA_JSON_FIELDS]
  simp only [List.foldl_cons, List.foldl_nil]
  rw [jobjKeys_setJsonField, jobjKeys_setJsonField, jobjKeys_setJsonField,
    jobjKeys_setJsonField, jobjKeys_setJsonField]

/-- C2 (amended): in multipart mode (assuming field names do not look like
generated ids and the pre-passed mapping itself carries no `attach://`
strings), every `attach://<id>` token appearing in a textual/JSON part uses a
freshly generated identifier, at most one part bears `<id>` as its field name
and every part bearing it carries a binary body, and no two attachments share
an identifier (each generated id names at most one part).  A token may be
dangling: an attachment ref with neither `url` nor a usable `source` emits
its `attach://<id>` reference but no binary part. -/
theorem c2_attach_ids_amended (env : MClient) (p : JObj) (cfg : FormConfig)
    (hks : ∀ k ∈ jobjKeys p, strStarts k "$" = false)
    (htok : jobjTokens (prePass p) = [])
    (h : buildFormDataConfig env p = .ok cfg) :
    (∀ j, (cfg.parts.filter (fun pt => pt.name = genId j)).length ≤ 1) ∧
    (∀ s ∈ partsTokens cfg.parts, (∃ j, s = genId j) ∧
      ∀ pt ∈ cfg.parts, pt.name = s → pt.isBin = true) := by
  rw [buildFormDataConfig] at h
  try dsimp only at h
  rcases he : attachEntries env (prePass p) ⟨0, []⟩ with e | st <;> rw [he] at h
  · cases h
  · cases h
    have hks2 : ∀ k ∈ jobjKeys (prePass p), strStarts k "$" = false := by
      rw [jobjKeys_prePass]
      exact hks
    obtain ⟨hle, new, hp, hname, hcnt, htoks⟩ :=
      attachEntries_parts env (prePass p) ⟨0, []⟩ st hks2 he
    rw [List.nil_append] at hp
    constructor
    · intro j
      dsimp only
      rw [hp]
      exact hcnt j
    · intro s hs
      dsimp only at hs ⊢
      rw [hp] at hs
      rcases htoks s hs with hq | ⟨j, _, _, hc⟩
      · rw [htok] at hq
        cases hq
      · refine ⟨⟨j, hc⟩, fun pt hpt hnm => ?_⟩
        rw [hp] at hpt
        rcases hname pt hpt with hn | ⟨j2, _, _, _, hd⟩
        · exfalso
          rw [jobjKeys_prePass] at hn
          exact ne_genId_of_not_starts pt.name (hks _ hn) j (hnm.trans hc)
        · exact hd

/-- Witness payload for C2 (amended): a buffer-backed photo plus a caption. -/
def payloadC2w : JObj :=
  .cons "photo" (.obj (.cons "source" (.buffer [1, 2]) .nil))
    (.cons "caption" (.str "hello") .nil)

/-- The multipart configuration produced for `payloadC2w`. -/
def configC2w : FormConfig :=
  ⟨"POST", true, "BOUNDARY",
    [⟨"photo", some "photo.jpg", .binary (.buf [1, 2])⟩,
     ⟨"caption", none, .scalarText (.str "hello")⟩]⟩

/-- Witness for C2 (amended) at `payloadC2w`. -/
theorem c2_attach_ids_amended_witness :
    buildFormDataConfig fsNoneEnv payloadC2w = .ok configC2w ∧
    ((∀ j, (configC2w.parts.filter (fun pt => pt.name = genId j)).length ≤ 1) ∧
     (∀ s ∈ partsTokens configC2w.parts, (∃ j, s = genId j) ∧
       ∀ pt ∈ configC2w.parts, pt.name = s → pt.isBin = true)) :=
  ⟨by decide,
   c2_attach_ids_amended fsNoneEnv payloadC2w configC2w (by decide) (by decide) (by decide)⟩

/-- All entries of an object satisfy a key-value predicate. -/
def jobjEntryP (P : String → JVal → Prop) : JObj → Prop
  | .nil => True
  | .cons k v fs => P k v ∧ jobjEntryP P fs

theorem jobjHas_iff_keys (p : JObj) (f : String) : jobjHas p f = true ↔ f ∈ jobjKeys p := by
  induction p using jobjInduction with
  | hnil => simp [jobjHas, jobjKeys]
  | hcons k v fs ih =>
    rw [jobjHas, jobjKeys]
    simp only [Bool.or_eq_true, decide_eq_true_eq, List.mem_cons, ih]
    constructor
    · rintro (h | h)
      · exact Or.inl h.symm
      · exact Or.inr h
    · rintro (h | h)
      · exact Or.inl h.symm
      · exact Or.inr h

theorem jobjEntryP_of_not_has (Q : String → JVal → Prop) (p : JObj) (f : String)
    (h : jobjHas p f = false) : jobjEntryP (fun k v => k = f → Q k v) p := by
  induction p using jobjInduction with
  | hnil => trivial
  | hcons k v fs ih =>
    rw [jobjHas] at h
    rw [Bool.or_eq_false_iff] at h
    refine ⟨fun hkf => absurd (decide_eq_true hkf) (by simp [h.1]), ih h.2⟩

theorem jobjEntryP_get (p : JObj) (f : String) (hnd : (jobjKeys p).Nodup) :
    jobjEntryP (fun k v => k = f → v = (jobjGet p f).getD .undefV) p := by
  induction p using jobjInduction with
  | hnil => trivial
  | hcons k v fs ih =>
    rw [jobjKeys, List.nodup_cons] at hnd
    by_cases hkf : k = f
    · subst hkf
      refine ⟨fun _ => by simp [jobjGet], ?_⟩
      have hno : jobjHas fs k = false := by
        rcases hh : jobjHas fs k with _ | _
        · rfl
        · exact absurd ((jobjHas_iff_keys fs k).mp hh) hnd.1
      exact jobjEntryP_of_not_has _ fs k hno
    · refine ⟨fun hc => absurd hc hkf, ?_⟩
      have := ih hnd.2
      simpa [jobjGet, hkf] using this

theorem jobjSet_entry_val (p : JObj) (f : String) (x : JVal) (hnd : (jobjKeys p).Nodup) :
    jobjEntryP (fun k v => k = f → v = x) (jobjSet p f x) := by
  induction p using jobjInduction with
  | hnil => exact ⟨fun _ => rfl, trivial⟩
  | hcons k v fs ih =>
    rw [jobjKeys, List.nodup_cons] at hnd
    by_cases hkf : k = f
    · subst hkf
      rw [jobjSet, if_pos rfl]
      refine ⟨fun _ => rfl, ?_⟩
      have hno : jobjHas fs k = false := by
        rcases hh : jobjHas fs k with _ | _
        · rfl
        · exact absurd ((jobjHas_iff_keys fs k).mp hh) hnd.1
      exact jobjEntryP_of_not_has _ fs k hno
    · rw [jobjSet, if_neg hkf]
      exact ⟨fun hc => absurd hc hkf, ih hnd.2⟩

theorem jobjEntryP_weaken (P Q : String → JVal → Prop) (p : JObj)
    (h : jobjEntryP P p) (himp : ∀ k v, P k v → Q k v) : jobjEntryP Q p := by
  induction p using jobjInduction with
  | hnil => trivial
  | hcons k v fs ih => exact ⟨himp k v h.1, ih h.2⟩

theorem stringifyNative_shape (v : JVal) :
    (∃ s, stringifyNative v = .str s) ∨ stringifyNative v = .undefV := by
  rw [stringifyNative]
  rcases serializeJ v with _ | u
  · exact Or.inr rfl
  · exact Or.inl ⟨render u, rfl⟩

/-- The property tracked for one JSON-allowlist field: every entry keyed `f`
holds a string or `undefined`. -/
def strAtField (f : String) : JObj → Prop :=
  jobjEntryP (fun k v => k = f → (∃ s, v = .str s) ∨ v = .undefV)

theorem setJsonField_entry (p : JObj) (f : String) (hnd : (jobjKeys p).Nodup) :
    strAtField f (setJsonField p f) := by
  rw [setJsonField]
  split
  · rename_i hcond
    refine jobjEntryP_weaken _ _ _ (jobjSet_entry_val p f _ hnd) (fun k v hp hkf => ?_)
    rw [hp hkf]
    exact stringifyNative_shape _
  · rename_i hcond
    rw [Bool.and_eq_true, not_and_or] at hcond
    rcases hcond with hc | hc
    · have hno : jobjHas p f = false := by
        rcases hh : jobjHas p f with _ | _
        · rfl
        · exact absurd hh (by simpa using hc)
      exact jobjEntryP_of_not_has _ p f hno
    · have hstr : typeofJ ((jobjGet p f).getD .undefV) = "string" := by
        by_contra hne
        exact hc (by simpa [bne_iff_ne] using hne)
      have hval : ∃ s, (jobjGet p f).getD .undefV = .str s := by
        rcases hv : (jobjGet p f).getD .undefV with _ | _ | b | n | t | xs | gs | d | t <;>
          rw [hv] at hstr <;> simp [typeofJ] at hstr
        · exact ⟨_, rfl⟩
      refine jobjEntryP_weaken _ _ _ (jobjEntryP_get p f hnd) (fun k v hp hkf => ?_)
      obtain ⟨s, hsv⟩ := hval
      exact Or.inl ⟨s, by rw [hp hkf, hsv]⟩

theorem jobjSet_entryP (P : String → JVal → Prop) (p : JObj) (g : String) (x : JVal)
    (hp : jobjEntryP P p) (hx : P g x) : jobjEntryP P (jobjSet p g x) := by
  induction p using jobjInduction with
  | hnil => exact ⟨hx, trivial⟩
  | hcons k v fs ih =>
    by_cases hkg : k = g
    · subst hkg
      rw [jobjSet, if_pos rfl]
      exact ⟨hx, hp.2⟩
    · rw [jobjSet, if_neg hkg]
      exact ⟨hp.1, ih hp.2⟩

theorem setJsonField_preserves (f g : String) (p : JObj) (h : strAtField f p) :
    strAtField f (setJsonField p g) := by
  rw [setJsonField]
  split
  · exact jobjSet_entryP _ p g _ h (fun _ => stringifyNative_shape _)
  · exact h

theorem foldl_setJsonField_preserves (f : String) (gs : List String) :
    ∀ (q : JObj), strAtField f q → strAtField f (List.foldl setJsonField q gs) := by
  induction gs with
  | nil => intro q h; exact h
  | cons g gs ih =>
    intro q h
    rw [List.foldl_cons]
    exact ih _ (setJsonField_preserves f g q h)

theorem foldl_setJsonField_nodup (gs : List String) :
    ∀ (q : JObj), jobjKeys (List.foldl setJsonField q gs) = jobjKeys q := by
  induction gs with
  | nil => intro q; rfl
  | cons g gs ih =>
    intro q
    rw [List.foldl_cons, ih, jobjKeys_setJsonField]

theorem foldl_setJsonField_entry (fields : List String) :
    ∀ (p : JObj) (f : String), (jobjKeys p).Nodup → f ∈ fields →
    strAtField f (List.foldl setJsonField p fields) := by
  induction fields with
  | nil =>
    intro p f hnd hf
    cases hf
  | cons g gs ih =>
    intro p f hnd hf
    rw [List.foldl_cons]
    rcases List.mem_cons.mp hf with heq | hmem
    · subst heq
      exact foldl_setJsonField_preserves f gs _ (setJsonField_entry p f hnd)
    · exact ih (setJsonField p g) f (by rw [jobjKeys_setJsonField]; exact hnd) hmem

theorem attachEntries_field (env : MClient) (f : String) (p : JObj) :
    ∀ (st st2 : EncSt),
    (∀ k ∈ jobjKeys p, strStarts k "$" = false) →
    strStarts f "$" = false →
    strAtField f p →
    attachEntries env p st = .ok st2 →
    ∃ new, st2.parts = st.parts ++ new ∧
      ∀ pt ∈ new, pt.name = f → ∃ s, pt.body = .scalarText (.str s) := by
  induction p using jobjInduction with
  | hnil =>
    intro st st2 hks hfs hp h
    rw [attachEntries] at h
    cases h
    exact ⟨[], by simp, by simp⟩
  | hcons k v fs ih =>
    intro st st2 hks hfs hp h
    rw [attachEntries] at h
    rcases h1 : attachFormValue env k v st with e | st1 <;> rw [h1] at h
    · cases h
    · dsimp only at h
      have hkk : strStarts k "$" = false := hks k (by rw [jobjKeys]; simp)
      have hkfs : ∀ k2 ∈ jobjKeys fs, strStarts k2 "$" = false := fun k2 hk2 =>
        hks k2 (by rw [jobjKeys]; simp [hk2])
      obtain ⟨new2, hp2, hok2⟩ := ih st1 st2 hkfs hfs hp.2 h
      by_cases hkf : k = f
      · subst hkf
        rcases hp.1 rfl with ⟨s, hv⟩ | hv
        · subst hv
          rw [attachFormValue_str env k s st] at h1
          cases h1
          refine ⟨[⟨k, none, .scalarText (.str s)⟩] ++ new2, ?_, ?_⟩
          · rw [hp2]
            dsimp only
            rw [List.append_assoc]
          · intro pt hpt hnm
            rcases List.mem_append.mp hpt with hm | hm
            · rw [List.mem_singleton] at hm
              subst hm
              exact ⟨s, rfl⟩
            · exact hok2 pt hm hnm
        · subst hv
          rw [attachFormValue_undefV env k st] at h1
          cases h1
          exact ⟨new2, hp2, fun pt hpt hnm => hok2 pt hpt hnm⟩
      · obtain ⟨hle1, new1, hpp1, hname1, _, _⟩ :=
          attachFormValue_parts env k v st st1 hkk h1
        refine ⟨new1 ++ new2, by rw [hp2, hpp1, List.append_assoc], ?_⟩
        intro pt hpt hnm
        rcases List.mem_append.mp hpt with hm | hm
        · rcases hname1 pt hm with hn | ⟨j, _, _, hc, _⟩
          · exact absurd (hn.symm.trans hnm) hkf
          · exact absurd (hc.symm.trans hnm) (Ne.symm (ne_genId_of_not_starts f hfs j))
        · exact hok2 pt hm hnm

/-- C6 (amended): the JSON-field pre-pass runs only at the head of the
multipart path; in multipart mode, every part whose field name is in the
`FORM_DATA_JSON_FIELDS` allowlist carries a string body (the original string,
or the `JSON.stringify` of the non-string value).  In JSON mode no
stringification happens and allowlist values are transmitted as they are
(see the counterexample). -/
theorem c6_multipart_json_fields (env : MClient) (p : JObj) (cfg : FormConfig) (f : String)
    (hnd : (jobjKeys p).Nodup)
    (hks : ∀ k ∈ jobjKeys p, strStarts k "$" = false)
    (hf : f ∈ FORM_DATA_JSON_FIELDS)
    (h : buildFormDataConfig env p = .ok cfg) :
    ∀ pt ∈ cfg.parts, pt.name = f → ∃ s, pt.body = .scalarText (.str s) := by
  have hfs : strStarts f "$" = false := by
    rw [FORM_DATA_JSON_FIELDS] at hf
    simp only [List.mem_cons, List.not_mem_nil, or_false] at hf
    rcases hf with rfl | rfl | rfl | rfl | rfl <;> decide
  rw [buildFormDataConfig] at h
  try dsimp only at h
  rcases he : attachEntries env (prePass p) ⟨0, []⟩ with e | st <;> rw [he] at h
  · cases h
  · cases h
    have hks2 : ∀ k ∈ jobjKeys (prePass p), strStarts k "$" = false := by
      rw [jobjKeys_prePass]
      exact hks
    have hentry : strAtField f (prePass p) := foldl_setJsonField_entry _ p f hnd hf
    obtain ⟨new, hp, hok⟩ := attachEntries_field env f (prePass p) ⟨0, []⟩ st hks2 hfs hentry he
    rw [List.nil_append] at hp
    intro pt hpt hnm
    dsimp only at hpt
    rw [hp] at hpt
    exact hok pt hpt hnm

/-- Witness payload for C6 (amended): a buffer-backed document plus an
object-valued `reply_markup`. -/
def payloadC6w : JObj :=
  .cons "document" (.obj (.cons "source" (.buffer [7]) .nil))
    (.cons "reply_markup" (.obj (.cons "keyboard" (.arr .nil) .nil)) .nil)

/-- The multipart configuration produced for `payloadC6w`: the non-string
`reply_markup` travels as the string `{"keyboard":[]}`. -/
def configC6w : FormConfig :=
  ⟨"POST", true, "BOUNDARY",
    [⟨"document", some "document.dat", .binary (.buf [7])⟩,
     ⟨"reply_markup", none, .scalarText (.str "\x7b\"keyboard\":[]\x7d")⟩]⟩

/-- Witness for C6 (amended) at `payloadC6w`. -/
theorem c6_multipart_json_fields_witness :
    buildFormDataConfig fsNoneEnv payloadC6w = .ok configC6w ∧
    (∀ pt ∈ configC6w.parts, pt.name = "reply_markup" →
      ∃ s, pt.body = .scalarText (.str s)) :=
  ⟨by decide,
   c6_multipart_json_fields fsNoneEnv payloadC6w configC6w "reply_markup"
     (by decide) (by decide) (by decide) (by decide)⟩

/-- An attachment value the media resolver accepts (under any id): the
resolution outcome of `attachFormMediaPart` depends on the id only through
the default filename. -/
def mediaResolvable (env : MClient) (m : JVal) : Prop :=
  ∀ i, ∃ op, attachFormMediaPart env m i = .ok op

/-- A group item on which the array branch completes: non-nullish, and its
`media` member either is not typeof-`object` (pass-through) or resolves,
along with its `thumb ?? thumbnail` value when that is typeof-`object`. -/
def goodItem (env : MClient) (item : JVal) : Prop :=
  item.isNullish = false ∧
  (typeofJ (objGetD item "media") ≠ "object" ∨
    (mediaResolvable env (objGetD item "media") ∧
     (typeofJ (thumbVal item) = "object" → mediaResolvable env (thumbVal item))))

def goodItems (env : MClient) : JArr → Prop
  | .nil => True
  | .cons x xs => goodItem env x ∧ goodItems env xs

/-- The relation between an input group item and its encoded form (amended
claim C5): pass-through for items without typeof-`object` media; otherwise
`media` is replaced by a fresh `attach://` reference, the `thumbnail` key is
written with a second, distinct reference when `thumb ?? thumbnail` is
typeof-`object`, and all members other than `media` and `thumbnail` are
unchanged. -/
def itemRel (item it2 : JVal) : Prop :=
  (typeofJ (objGetD item "media") ≠ "object" → it2 = item) ∧
  (typeofJ (objGetD item "media") = "object" →
    (typeofJ (thumbVal item) = "object" →
      ∃ a b, a ≠ b ∧ objGetD it2 "media" = .str ("attach://" ++ a) ∧
        objGetD it2 "thumbnail" = .str ("attach://" ++ b)) ∧
    (typeofJ (thumbVal item) ≠ "object" →
      (∃ a, objGetD it2 "media" = .str ("attach://" ++ a)) ∧
      ∀ kk, kk ≠ "media" → objGetD it2 kk = objGetD item kk) ∧
    (∀ kk, kk ≠ "media" → kk ≠ "thumbnail" → objGetD it2 kk = objGetD item kk))

theorem item_obj_of_media_object (item : JVal)
    (h : typeofJ (objGetD item "media") = "object") : ∃ fs, item = .obj fs := by
  cases item <;> first | exact ⟨_, rfl⟩ | simp [objGetD, typeofJ] at h

theorem itemRel_undefV : itemRel .undefV .undefV := by
  constructor
  · intro _
    rfl
  · intro h
    simp [objGetD, typeofJ] at h

theorem attachGroupItem_good (env : MClient) (item : JVal) (st : EncSt)
    (hg : goodItem env item) :
    ∃ it2 st2, attachGroupItem env item st = .ok (it2, st2) ∧
      st.nextId ≤ st2.nextId ∧
      (∃ bins, st2.parts = st.parts ++ bins ∧ ∀ pt ∈ bins, pt.isBin = true) ∧
      itemRel item it2 := by
  rw [attachGroupItem, getPropE_not_nullish item "media" hg.1]
  dsimp only
  by_cases hobj : typeofJ (objGetD item "media") = "object"
  · rw [if_neg (by simp [hobj])]
    rcases hg.2 with hc | ⟨hres, htres⟩
    · exact absurd hobj hc
    obtain ⟨fs, hfs⟩ := item_obj_of_media_object item hobj
    obtain ⟨op1, hop1⟩ := hres (genId st.nextId)
    rw [attachFormMedia, hop1]
    dsimp only
    have hsh1 := attachFormMediaPart_shape env _ (genId st.nextId) op1 hop1
    by_cases hth : typeofJ (thumbVal item) = "object"
    · rw [if_pos (by simp [hth])]
      obtain ⟨op2, hop2⟩ := htres hth (genId (st.nextId + 1))
      rw [attachFormMedia, hop2]
      dsimp only
      have hsh2 := attachFormMediaPart_shape env _ (genId (st.nextId + 1)) op2 hop2
      refine ⟨_, _, rfl, by dsimp only; omega, ?_, ?_, ?_⟩
      · refine ⟨op1.toList ++ op2.toList, by dsimp only; rw [List.append_assoc], ?_⟩
        intro pt hpt
        rcases List.mem_append.mp hpt with hm | hm
        · exact (hsh1 pt hm).2.1
        · exact (hsh2 pt hm).2.1
      · intro hno
        exact absurd hobj hno
      · intro _
        subst hfs
        refine ⟨?_, ?_, ?_⟩
        · intro _
          refine ⟨genId st.nextId, genId (st.nextId + 1), ?_, ?_, ?_⟩
          · intro hc
            have := genId_inj _ _ hc
            omega
          · simp only [jvalSet, objGetD]
            rw [jobjGet_jobjSet_other _ "thumbnail" "media" _ (by decide),
              jobjGet_jobjSet_self]
            rfl
          · simp only [jvalSet, objGetD]
            rw [jobjGet_jobjSet_self]
            rfl
        · intro hc
          exact absurd hth hc
        · intro kk hk1 hk2
          simp only [jvalSet, objGetD]
          rw [jobjGet_jobjSet_other _ "thumbnail" kk _ hk2,
            jobjGet_jobjSet_other _ "media" kk _ hk1]
    · rw [if_neg (by simp [hth])]
      refine ⟨_, _, rfl, by dsimp only; omega, ?_, ?_, ?_⟩
      · refine ⟨op1.toList, by dsimp only, ?_⟩
        intro pt hpt
        exact (hsh1 pt hpt).2.1
      · intro hno
        exact absurd hobj hno
      · intro _
        subst hfs
        refine ⟨fun hc => absurd hc hth, ?_, ?_⟩
        · intro _
          refine ⟨⟨genId st.nextId, objGetD_jvalSet_self fs "media" _⟩, ?_⟩
          intro kk hk1
          exact objGetD_jvalSet_other fs "media" kk _ hk1
        · intro kk hk1 _
          exact objGetD_jvalSet_other fs "media" kk _ hk1
  · rw [if_pos (by simp [hobj])]
    refine ⟨item, st, rfl, le_refl _, ⟨[], by simp, by simp⟩, fun _ => rfl, ?_⟩
    intro hc
    exact absurd hc hobj

theorem attachGroupItems_good (env : MClient) (xs : JArr) :
    ∀ st, goodItems env xs →
    ∃ items st2, attachGroupItems env xs st = .ok (items, st2) ∧
      (∃ bins, st2.parts = st.parts ++ bins ∧ ∀ pt ∈ bins, pt.isBin = true) ∧
      jarrLength items = jarrLength xs ∧
      ∀ n, itemRel (jarrGet xs n) (jarrGet items n) := by
  induction xs using jarrInduction with
  | hnil =>
    intro st _
    refine ⟨.nil, st, rfl, ⟨[], by simp, by simp⟩, rfl, ?_⟩
    intro n
    simpa [jarrGet] using itemRel_undefV
  | hcons x xs ih =>
    intro st hg
    obtain ⟨hgx, hgxs⟩ := hg
    obtain ⟨x2, st1, h1, _, ⟨bins1, hb1, hbin1⟩, hrel1⟩ :=
      attachGroupItem_good env x st hgx
    obtain ⟨items, st2, h2, ⟨bins2, hb2, hbin2⟩, hlen, hrels⟩ := ih st1 hgxs
    refine ⟨.cons x2 items, st2, ?_, ⟨bins1 ++ bins2, ?_, ?_⟩, ?_, ?_⟩
    · rw [attachGroupItems, h1]
      dsimp only
      rw [h2]
    · rw [hb2, hb1, List.append_assoc]
    · intro pt hpt
      rcases List.mem_append.mp hpt with hm | hm
      · exact hbin1 pt hm
      · exact hbin2 pt hm
    · simp [jarrLength, hlen]
    · intro n
      cases n with
      | zero => simpa [jarrGet] using hrel1
      | succ m => simpa [jarrGet] using hrels m

/-- C5 (amended): for every array-valued field whose name is not
`thumb`/`thumbnail`, when every group item completes (`goodItems`), the
multipart encoding preserves the array's ordering and length; items whose
`media` member is not typeof-`object` pass through unchanged; each item with
a typeof-`object` `media` gains a fresh `attach://` reference under `media`
and, when its `thumb ?? thumbnail` value is typeof-`object`, a second,
distinct reference written under the `thumbnail` key (the original `thumb`
member is retained, not replaced); all members other than `media` and
`thumbnail` are untouched; and the state gains only binary attachment parts
followed by exactly one JSON part under the field name holding the
transformed array. -/
theorem c5_group_items_amended (env : MClient) (id : String) (xs : JArr)
    (st : EncSt) (hid1 : id ≠ "thumb") (hid2 : id ≠ "thumbnail")
    (hg : goodItems env xs) :
    ∃ items st2 bins,
      attachFormValue env id (.arr xs) st = .ok st2 ∧
      st2.parts = st.parts ++ bins ++ [⟨id, none, .jsonBody (.arr items)⟩] ∧
      (∀ pt ∈ bins, pt.isBin = true) ∧
      jarrLength items = jarrLength xs ∧
      (∀ n, itemRel (jarrGet xs n) (jarrGet items n)) := by
  obtain ⟨items, st1, h, ⟨bins, hb, hbin⟩, hlen, hrel⟩ :=
    attachGroupItems_good env xs st hg
  refine ⟨items, ⟨st1.nextId, st1.parts ++ [⟨id, none, .jsonBody (.arr items)⟩]⟩,
    bins, ?_, ?_, hbin, hlen, hrel⟩
  · rw [attachFormValue.eq_def]
    rw [if_neg (by simp [JVal.isNullish])]
    rw [if_neg (by simp [isScalar])]
    rw [if_neg (by simp [hid1, hid2])]
    dsimp only
    rw [h]
  · dsimp only
    rw [hb, List.append_assoc]

/-- Three group items per the spec's array example: items 1 and 3 carry
typeof-`object` `media` (a `url` ref and a buffer `source`), item 2 a string
`media`. -/
def itemsC5w : JArr :=
  .cons (.obj (.cons "type" (.str "photo")
          (.cons "media" (.obj (.cons "url" (.str "u1") .nil)) .nil)))
  (.cons (.obj (.cons "type" (.str "photo")
          (.cons "media" (.str "file_id_2") .nil)))
  (.cons (.obj (.cons "type" (.str "document")
          (.cons "media" (.obj (.cons "source" (.buffer [3]) .nil)) .nil)))
  .nil))

theorem goodItemsC5w : goodItems fsNoneEnv itemsC5w := by
  refine ⟨⟨rfl, Or.inr ⟨?_, fun h => absurd h (by decide)⟩⟩,
    ⟨rfl, Or.inl (by decide)⟩,
    ⟨rfl, Or.inr ⟨?_, fun h => absurd h (by decide)⟩⟩, trivial⟩
  · intro i
    exact ⟨some ⟨i, some (i ++ "." ++ ((DEFAULT_EXTENSIONS i).getD "dat")),
      .binary (.fetched "u1")⟩, rfl⟩
  · intro i
    exact ⟨some ⟨i, some (i ++ "." ++ ((DEFAULT_EXTENSIONS i).getD "dat")),
      .binary (.buf [3])⟩, rfl⟩

/-- Witness for C5 (amended) at `itemsC5w` under the field name `media`. -/
theorem c5_group_items_amended_witness :
    ("media" : String) ≠ "thumb" ∧ ("media" : String) ≠ "thumbnail" ∧
    goodItems fsNoneEnv itemsC5w ∧
    ∃ items st2 bins,
      attachFormValue fsNoneEnv "media" (.arr itemsC5w) ⟨0, []⟩ = .ok st2 ∧
      st2.parts = [] ++ bins ++ [⟨"media", none, .jsonBody (.arr items)⟩] ∧
      (∀ pt ∈ bins, pt.isBin = true) ∧
      jarrLength items = jarrLength itemsC5w ∧
      (∀ n, itemRel (jarrGet itemsC5w n) (jarrGet items n)) :=
  ⟨by decide, by decide, goodItemsC5w,
   c5_group_items_amended fsNoneEnv "media" itemsC5w ⟨0, []⟩
     (by decide) (by decide) goodItemsC5w⟩
